import Mathlib

/-!
# Food ordering system: order and menu state management

A shallow embedding of `src/food.cpp`.

Modelling conventions.

* `double` values (prices, totals, tendered amounts) are rationals `ℚ`: the
  development reasons about the program in exact arithmetic.
* `int` values (ids, quantities) are mathematical integers `Int`.  Signed
  overflow is undefined behaviour in C++; the model describes the executions
  in which it does not occur.
* `std::string` is `List Char`.
* `std::map<int, V>` is an association list kept in strictly increasing key
  order (the iteration order of `std::map`), with `find`, `insert`, `erase`.
* Interactive functions take the values extracted from `std::cin` as
  arguments; console output is represented by an outcome value.  A prompt
  loop whose input runs out leaves the state as it is at the prompt.
* The C++ library is not part of the source: `loadMenuFromFile` takes the
  extraction `stream >> double` as a parameter, and `extractDouble`, `fixed2`
  model the library's decimal extraction and `std::fixed`/`setprecision(2)`
  formatting in exact decimal arithmetic.
-/

namespace FoodOrdering

/-! ## `std::map<int, V>` -/

/-- An ordered map with integer keys, as a key-sorted association list. -/
abbrev IntMap (V : Type) := List (Int × V)

namespace IntMap

variable {V : Type}

/-- Lookup, the model of `find` / `at` / `count`. -/
def find (k : Int) : IntMap V → Option V
  | [] => none
  | (k', v) :: t => if k = k' then some v else find k t

/-- The model of `m.count(k)`, as a boolean. -/
def count (k : Int) (m : IntMap V) : Bool := (find k m).isSome

/-- The model of `m[k] = v`: insert at the sorted position, or overwrite. -/
def insert (k : Int) (v : V) : IntMap V → IntMap V
  | [] => [(k, v)]
  | (k', v') :: t =>
    if k < k' then (k, v) :: (k', v') :: t
    else if k = k' then (k, v) :: t
    else (k', v') :: insert k v t

/-- The model of `m.erase(k)`. -/
def erase (k : Int) : IntMap V → IntMap V
  | [] => []
  | (k', v') :: t => if k = k' then t else (k', v') :: erase k t

/-- The keys in iteration order. -/
def keys (m : IntMap V) : List Int := m.map Prod.fst

/-- Well-formedness: keys strictly increasing (hence pairwise distinct). -/
def WF (m : IntMap V) : Prop := (keys m).Pairwise (· < ·)

end IntMap

/-! ## `struct MenuItem` -/

/-- A menu item: `id`, `name`, `price`. -/
structure MenuItem where
  id : Int
  name : List Char
  price : ℚ
  deriving DecidableEq

/-! ## `class Order` -/

/-- The customer's order: `items` maps an item id to a quantity, `total_cost`
is the cached running total. -/
structure Order where
  items : IntMap Int
  total_cost : ℚ
  deriving DecidableEq

namespace Order

/-- A freshly constructed order: no items, `total_cost = 0.0`. -/
def empty : Order := { items := [], total_cost := 0 }

/-- `Order::addItem`: for a positive quantity, `items[item_id] += quantity`
(a missing entry is created with value 0 first) and the total grows by
`item_price * quantity`. -/
def addItem (o : Order) (item_id quantity : Int) (item_price : ℚ) : Order :=
  if quantity > 0 then
    { items := IntMap.insert item_id ((IntMap.find item_id o.items).getD 0 + quantity) o.items
      total_cost := o.total_cost + item_price * quantity }
  else o

/-- `Order::removeItem`: returns the boolean result and the new order. -/
def removeItem (o : Order) (item_id quantity : Int) (item_price : ℚ) : Bool × Order :=
  match IntMap.find item_id o.items with
  | some stored =>
    if quantity ≥ stored then
      (true, { items := IntMap.erase item_id o.items
               total_cost := o.total_cost - item_price * stored })
    else if quantity > 0 then
      (true, { items := IntMap.insert item_id (stored - quantity) o.items
               total_cost := o.total_cost - item_price * quantity })
    else (false, o)
  | none => (false, o)

/-- `Order::getTotal`. -/
def getTotal (o : Order) : ℚ := o.total_cost

/-- `Order::hasItem`. -/
def hasItem (o : Order) (item_id : Int) : Bool := IntMap.count item_id o.items

/-- `Order::clear`. -/
def clear (_o : Order) : Order := { items := [], total_cost := 0 }

end Order

/-! ## Order-level call sequences -/

/-- The sum, over the entries of an order, of stored quantity times the unit
price given by `price`. -/
def lineSum (price : Int → ℚ) (items : IntMap Int) : ℚ :=
  (items.map fun e => price e.1 * (e.2 : ℚ)).sum

/-- The price the catalog `menu_map` lists for `id` (`menu_map.at(id).price`);
0 for an id the catalog does not have. -/
def catalogPrice (menu_map : IntMap MenuItem) (id : Int) : ℚ :=
  ((IntMap.find id menu_map).map MenuItem.price).getD 0

/-- One call of the public mutating interface of `Order`. -/
inductive OrderCall where
  | addItem (item_id quantity : Int) (item_price : ℚ)
  | removeItem (item_id quantity : Int) (item_price : ℚ)
  | clear
  deriving DecidableEq

namespace Order

/-- The order after one call. -/
def call (o : Order) : OrderCall → Order
  | .addItem i q p => o.addItem i q p
  | .removeItem i q p => (o.removeItem i q p).2
  | .clear => o.clear

/-- The order after a sequence of calls, first call first. -/
def runCalls (o : Order) (cs : List OrderCall) : Order := cs.foldl call o

/-- An order state that some sequence of calls produces from the empty order. -/
def Reachable (o : Order) : Prop := ∃ cs : List OrderCall, runCalls empty cs = o

/-- The representation invariant of reachable orders: keys strictly increasing
and every stored quantity positive. -/
def Inv (o : Order) : Prop :=
  IntMap.WF o.items ∧ ∀ k s, IntMap.find k o.items = some s → 0 < s

end Order

/-- The cached total agrees with the line sum under the pricing `price`. -/
def Order.Priced (price : Int → ℚ) (o : Order) : Prop :=
  o.Inv ∧ o.total_cost = lineSum price o.items

/-- A line addition or removal priced by a catalog. -/
inductive LineOp where
  | add (item_id quantity : Int)
  | remove (item_id quantity : Int)
  deriving DecidableEq

/-- The item id a line operation names. -/
def LineOp.itemId : LineOp → Int
  | .add i _ => i
  | .remove i _ => i

/-- A line operation performed with the catalog price of its id:
`addItem(id, q, price(id))` or `removeItem(id, q, price(id))`. -/
def applyLine (menu_map : IntMap MenuItem) (o : Order) : LineOp → Order
  | .add i q => o.addItem i q (catalogPrice menu_map i)
  | .remove i q => (o.removeItem i q (catalogPrice menu_map i)).2

/-- A sequence of line operations, first operation first. -/
def applyLines (menu_map : IntMap MenuItem) (o : Order) (ops : List LineOp) : Order :=
  ops.foldl (applyLine menu_map) o

/-! ## Text: lines, `rfind`, number formatting and extraction -/

/-- The lines `std::getline` yields from a text, in order: each line ends at a
newline or at the end of the text, and no line is produced once nothing is left. -/
def getlines : List Char → List (List Char)
  | [] => []
  | c :: cs =>
    if c = '\n' then [] :: getlines cs
    else
      match getlines cs with
      | [] => [[c]]
      | l :: ls => (c :: l) :: ls

/-- `line.rfind(c)`: the index of the last occurrence of `c`, `none` for `npos`. -/
def rfind (c : Char) : List Char → Option Nat
  | [] => none
  | x :: xs =>
    match rfind c xs with
    | some i => some (i + 1)
    | none => if x = c then some 0 else none

/-- The character of a decimal digit. -/
def digitChar (d : Nat) : Char := Char.ofNat (48 + d)

/-- The value of a decimal digit character. -/
def digitVal (c : Char) : Nat := c.toNat - 48

/-- Decimal digits of `n`, most significant first (`fuel` bounds the length). -/
def decimalDigits : Nat → Nat → List Char
  | 0, _ => []
  | fuel + 1, n =>
    if n < 10 then [digitChar n]
    else decimalDigits fuel (n / 10) ++ [digitChar (n % 10)]

/-- The decimal numeral of a natural number. -/
def natToText (n : Nat) : List Char := decimalDigits (n + 1) n

/-- Rounding to the nearest integer, ties to even. -/
def roundHalfEven (x : ℚ) : Int :=
  let f := Rat.floor x
  let r := x - f
  if r < 1 / 2 then f
  else if 1 / 2 < r then f + 1
  else if f % 2 = 0 then f else f + 1

/-- The text `stream << std::fixed << std::setprecision(2) << x` writes: the
value rounded to two fractional digits, with a minus sign for a negative value. -/
def fixed2 (x : ℚ) : List Char :=
  let c := (roundHalfEven (|x| * 100)).toNat
  (if x < 0 then ['-'] else [])
    ++ natToText (c / 100) ++ ['.'] ++ [digitChar (c % 100 / 10), digitChar (c % 10)]

/-- The value of a string of decimal digits. -/
def digitsVal (ds : List Char) : Nat := ds.foldl (fun acc c => 10 * acc + digitVal c) 0

/-- The whitespace characters `stream >> x` skips. -/
def isSpace (c : Char) : Bool :=
  c = ' ' || c = '\t' || c = '\n' || c = '\r' || c.toNat = 11 || c.toNat = 12

/-- The exponent part of a numeral: the factor it denotes and nothing when the
text does not start with `e`/`E`; `none` when an exponent starts but has no digits. -/
def extractExponent (cs : List Char) : Option ℚ :=
  match cs with
  | [] => some 1
  | c :: rest =>
    if c = 'e' || c = 'E' then
      let neg := rest.head? = some '-'
      let rest := if rest.head? = some '-' || rest.head? = some '+' then rest.tail else rest
      let ds := rest.takeWhile Char.isDigit
      if ds = [] then none
      else if neg then some (1 / (10 : ℚ) ^ digitsVal ds) else some ((10 : ℚ) ^ digitsVal ds)
    else some 1

/-- A model of the extraction `stream >> double_value` on the content of a
string stream, for decimal numerals: leading whitespace is skipped, then an
optional sign, digits, an optional fraction and an optional exponent are read;
what follows the numeral is left unread.  `none` is a failed extraction (no
digit where the numeral should start, or an exponent without digits). -/
def extractDouble (cs : List Char) : Option ℚ :=
  let cs := cs.dropWhile isSpace
  let neg := cs.head? = some '-'
  let cs := if cs.head? = some '-' || cs.head? = some '+' then cs.tail else cs
  let ip := cs.takeWhile Char.isDigit
  let cs := cs.dropWhile Char.isDigit
  let fp := if cs.head? = some '.' then cs.tail.takeWhile Char.isDigit else []
  let cs := if cs.head? = some '.' then cs.tail.dropWhile Char.isDigit else cs
  if ip = [] ∧ fp = [] then none
  else
    match extractExponent cs with
    | none => none
    | some scale =>
      let m : ℚ := ((digitsVal ip : ℚ) + (digitsVal fp : ℚ) / (10 : ℚ) ^ fp.length) * scale
      some (if neg then -m else m)

/-! ## `class FoodOrderingSystem` -/

/-- The state of the application: the menu as a list and as a map, the
current order and the next unused item id. -/
structure FoodOrderingSystem where
  menu_list : List MenuItem
  menu_map : IntMap MenuItem
  current_order : Order
  next_available_id : Int
  deriving DecidableEq

/-- The six items the constructor falls back to. -/
def defaults : List MenuItem :=
  [ { id := 1, name := "Veggie Burger".toList, price := 599 / 100 },
    { id := 2, name := "Cheese Pizza Slice".toList, price := 350 / 100 },
    { id := 3, name := "French Fries (Large)".toList, price := 299 / 100 },
    { id := 4, name := "Soda (Coke/Pepsi)".toList, price := 150 / 100 },
    { id := 5, name := "Bottled Water".toList, price := 100 / 100 },
    { id := 6, name := "Iced Coffee".toList, price := 400 / 100 } ]

/-- The loop state of `loadMenuFromFile`: `menu_list`, `menu_map`, `current_id`. -/
abbrev LoadState := List MenuItem × IntMap MenuItem × Int

/-- The body of the `getline` loop of `loadMenuFromFile` for one line.
`extract` is the extraction `price_ss >> price_part`. -/
def loadLine (extract : List Char → Option ℚ) (st : LoadState) (line : List Char) : LoadState :=
  match rfind ',' line with
  | some comma_pos =>
    let name_part := line.take comma_pos
    let price_str := line.drop (comma_pos + 1)
    match extract price_str with
    | some price_part =>
      let item : MenuItem := { id := st.2.2, name := name_part, price := price_part }
      (st.1 ++ [item], IntMap.insert st.2.2 item st.2.1, st.2.2 + 1)
    | none => st
  | none => st

namespace FoodOrderingSystem

/-- `loadMenuFromFile`: `file` is the content of the file, `none` when it
cannot be opened.  Returns the boolean result and the new state. -/
def loadMenuFromFile (extract : List Char → Option ℚ) (s : FoodOrderingSystem)
    (file : Option (List Char)) : Bool × FoodOrderingSystem :=
  match file with
  | none => (false, s)
  | some text =>
    let st := (getlines text).foldl (loadLine extract) ([], [], 1)
    let s' := { s with menu_list := st.1, menu_map := st.2.1, next_available_id := st.2.2 }
    if st.1 = [] then (false, s') else (true, s')

/-- The members as initialised before the constructor body runs. -/
def initial : FoodOrderingSystem :=
  { menu_list := [], menu_map := [], current_order := Order.empty, next_available_id := 1 }

/-- The constructor `FoodOrderingSystem()`: load the menu file, fall back to
the defaults when that fails, and raise `next_available_id` above loaded ids. -/
def construct (extract : List Char → Option ℚ) (file : Option (List Char)) :
    FoodOrderingSystem :=
  match loadMenuFromFile extract initial file with
  | (false, s) =>
    let s' := defaults.foldl
      (fun (t : FoodOrderingSystem) item =>
        { t with menu_list := t.menu_list ++ [item],
                 menu_map := IntMap.insert item.id item t.menu_map }) s
    { s' with next_available_id := 7 }
  | (true, s) =>
    { s with next_available_id :=
        (s.menu_list.foldl (fun n item => if item.id ≥ n then item.id + 1 else n)
          s.next_available_id) }

/-- The text the loop of `saveMenuToFile` writes: one `name,price` line per item. -/
def menuText : List MenuItem → List Char
  | [] => []
  | item :: rest => item.name ++ [','] ++ fixed2 item.price ++ ['\n'] ++ menuText rest

/-- `saveMenuToFile`: `is_open` tells whether the file could be opened for
writing.  Returns the boolean result and the text written, if any. -/
def saveMenuToFile (s : FoodOrderingSystem) (is_open : Bool) : Bool × Option (List Char) :=
  if is_open then (true, some (menuText s.menu_list)) else (false, none)

/-- `takeOrder`: `entries` are the pairs (item id, quantity) the customer
enters; the loop ends at item id 0.  The quantity is only read for an id that
is on the menu. -/
def takeOrder (s : FoodOrderingSystem) : List (Int × Int) → FoodOrderingSystem
  | [] => s
  | (item_id, quantity) :: rest =>
    if item_id = 0 then s
    else if IntMap.count item_id s.menu_map then
      if quantity ≤ 0 then takeOrder s rest
      else
        match IntMap.find item_id s.menu_map with
        | some item =>
          takeOrder { s with current_order :=
            s.current_order.addItem item.id quantity item.price } rest
        | none => takeOrder s rest
    else takeOrder s rest

/-- What `modifyOrder` reports. -/
inductive ModifyOutcome where
  | orderEmpty
  | cancelled
  | invalidQuantity
  | removed
  | errorRemoving
  | notInOrder
  deriving DecidableEq

/-- `modifyOrder` with the entered item id and quantity.  `none` is the
exception `menu_map.at(item_id)` throws for an id missing from the menu. -/
def modifyOrder (s : FoodOrderingSystem) (item_id quantity : Int) :
    Option (ModifyOutcome × FoodOrderingSystem) :=
  if s.current_order.getTotal = 0 then some (.orderEmpty, s)
  else if item_id = 0 then some (.cancelled, s)
  else if s.current_order.hasItem item_id then
    if quantity ≤ 0 then some (.invalidQuantity, s)
    else
      match IntMap.find item_id s.menu_map with
      | none => none
      | some item =>
        match s.current_order.removeItem item_id quantity item.price with
        | (true, o) => some (.removed, { s with current_order := o })
        | (false, o) => some (.errorRemoving, { s with current_order := o })
  else some (.notInOrder, s)

/-- The payment loop `while (amount_paid < total)`: `inputs` are the amounts
entered, `amount_paid` the current value of the variable.  Returns the accepted
amount, or `none` when the inputs run out while the loop still asks. -/
def payLoop (total : ℚ) : List ℚ → ℚ → Option ℚ
  | [], amount_paid => if amount_paid < total then none else some amount_paid
  | a :: rest, amount_paid =>
    if amount_paid < total then
      if a < total then payLoop total rest 0 else payLoop total rest a
    else some amount_paid

/-- What `processPayment` reports. -/
inductive PayOutcome where
  | nothingToPay
  | complete (change : ℚ)
  | insufficient
  deriving DecidableEq

/-- `processPayment` with the amounts entered at the prompt.  `insufficient`
is the state in which every entered amount was rejected and the loop asks again. -/
def processPayment (s : FoodOrderingSystem) (inputs : List ℚ) :
    PayOutcome × FoodOrderingSystem :=
  if s.current_order.getTotal = 0 then (.nothingToPay, s)
  else
    let total := s.current_order.getTotal
    match payLoop total inputs 0 with
    | none => (.insufficient, s)
    | some amount_paid =>
      (.complete (amount_paid - total), { s with current_order := s.current_order.clear })

/-- `addNewItem`: `input` is the pending input from which `std::getline` takes
the name (the characters before the first newline), `price` the entered price.
Returns the id assigned, if any, and the new state. -/
def addNewItem (s : FoodOrderingSystem) (input : List Char) (price : ℚ) :
    Option Int × FoodOrderingSystem :=
  let name := input.takeWhile (· ≠ '\n')
  if price ≤ 0 then (none, s)
  else
    let new_item : MenuItem := { id := s.next_available_id, name := name, price := price }
    (some s.next_available_id,
     { s with menu_list := s.menu_list ++ [new_item],
              menu_map := IntMap.insert s.next_available_id new_item s.menu_map,
              next_available_id := s.next_available_id + 1 })

/-- The loop of `updateItemPrice` over `menu_list`: the first item with the
given id gets the new price, then the loop breaks. -/
def setFirstPrice (id : Int) (new_price : ℚ) : List MenuItem → List MenuItem
  | [] => []
  | item :: rest =>
    if item.id = id then { item with price := new_price } :: rest
    else item :: setFirstPrice id new_price rest

/-- What `updateItemPrice` reports. -/
inductive UpdateOutcome where
  | updated
  | invalidPrice
  | notFound
  deriving DecidableEq

/-- `updateItemPrice` with the entered id and price. -/
def updateItemPrice (s : FoodOrderingSystem) (id : Int) (new_price : ℚ) :
    UpdateOutcome × FoodOrderingSystem :=
  match IntMap.find id s.menu_map with
  | some item =>
    if new_price ≤ 0 then (.invalidPrice, s)
    else
      (.updated,
       { s with menu_map := IntMap.insert id { item with price := new_price } s.menu_map,
                menu_list := setFirstPrice id new_price s.menu_list })
  | none => (.notFound, s)

end FoodOrderingSystem

/-- A service operation together with the values entered for it. -/
inductive Op where
  | takeOrder (entries : List (Int × Int))
  | modifyOrder (item_id quantity : Int)
  | processPayment (inputs : List ℚ)
  | addNewItem (input : List Char) (price : ℚ)
  | updateItemPrice (id : Int) (new_price : ℚ)

namespace FoodOrderingSystem

/-- The state after one service operation; `none` when the operation ends in
an uncaught exception. -/
def step (s : FoodOrderingSystem) : Op → Option FoodOrderingSystem
  | .takeOrder entries => some (s.takeOrder entries)
  | .modifyOrder i q => (s.modifyOrder i q).map Prod.snd
  | .processPayment inputs => some (s.processPayment inputs).2
  | .addNewItem input price => some (s.addNewItem input price).2
  | .updateItemPrice id p => some (s.updateItemPrice id p).2

/-- The state after a sequence of service operations, first operation first. -/
def run (s : FoodOrderingSystem) : List Op → Option FoodOrderingSystem
  | [] => some s
  | op :: ops =>
    match s.step op with
    | some s' => run s' ops
    | none => none

/-- A state the system reaches from its constructor by service operations. -/
def Reachable (s : FoodOrderingSystem) : Prop :=
  ∃ (extract : List Char → Option ℚ) (file : Option (List Char)) (ops : List Op),
    run (construct extract file) ops = some s

end FoodOrderingSystem


/-! ## Concrete sessions on the default menu -/

/-- The system constructed without a menu file: the default menu, empty order. -/
def defaultSystem : FoodOrderingSystem := FoodOrderingSystem.construct extractDouble none

/-- The default system after ordering 2 pizza slices (3.50), 1 soda (1.50) and
1 iced coffee (4.00): the total is 12.50. -/
def order1250 : FoodOrderingSystem := defaultSystem.takeOrder [(2, 2), (4, 1), (6, 1), (0, 0)]

/-- The default system after ordering 1 soda at 1.50, the admin raising the
price of soda to 2.50, and the customer removing the soda again. -/
def sodaSession : List Op :=
  [.takeOrder [(4, 1), (0, 0)], .updateItemPrice 4 (5 / 2), .modifyOrder 4 1]

/-- The default menu with soda repriced to 2.50, an order without line items
and the cached total -1. -/
def negativeTotal : FoodOrderingSystem :=
  { (defaultSystem.updateItemPrice 4 (5 / 2)).2 with
    current_order := { items := [], total_cost := -1 } }


/-! ## Invariants of reachable states -/

/-- The map entry the code stores for a menu item: `menu_map[item.id] = item`. -/
def pairOf (it : MenuItem) : Int × MenuItem := (it.id, it)

/-- The ids 1, 2, ..., n. -/
def idsFrom1 (n : Nat) : List Int := (List.range n).map (fun (i : Nat) => (i : Int) + 1)

/-- The invariant of the loop of `loadMenuFromFile`. -/
def LoadInv (st : LoadState) : Prop :=
  st.2.1 = st.1.map pairOf
  ∧ st.1.map MenuItem.id = idsFrom1 st.1.length
  ∧ st.2.2 = (st.1.length : Int) + 1

namespace FoodOrderingSystem

/-- The catalog invariant: `menu_map` holds exactly the items of `menu_list`
under their ids, the ids are 1..n in list order, and `next_available_id` is n + 1. -/
def CatalogInv (s : FoodOrderingSystem) : Prop :=
  s.menu_map = s.menu_list.map pairOf
  ∧ s.menu_list.map MenuItem.id = idsFrom1 s.menu_list.length
  ∧ s.next_available_id = (s.menu_list.length : Int) + 1

/-- The order invariant: the order is well formed with positive quantities and
every id in it is a key of `menu_map`. -/
def OrderInv (s : FoodOrderingSystem) : Prop :=
  s.current_order.Inv ∧ ∀ k ∈ IntMap.keys s.current_order.items, k ∈ IntMap.keys s.menu_map

end FoodOrderingSystem


namespace FoodOrderingSystem

/-- The invariant of every reachable state. -/
def SysInv (s : FoodOrderingSystem) : Prop := s.CatalogInv ∧ s.OrderInv

end FoodOrderingSystem


namespace FoodOrderingSystem

end FoodOrderingSystem


/-! ## What a saved menu reads back as -/

/-- The value of the numeral `fixed2 x`: `x` rounded to two fractional digits. -/
def round2 (x : ℚ) : ℚ :=
  if x < 0 then -(((roundHalfEven (|x| * 100)).toNat : ℚ) / 100)
  else ((roundHalfEven (|x| * 100)).toNat : ℚ) / 100

/-- The items of a saved menu as they are read back: numbered from `start` in
order, names kept, prices rounded to two fractional digits. -/
def renumber (start : Int) : List MenuItem → List MenuItem
  | [] => []
  | it :: rest =>
    { id := start, name := it.name, price := round2 it.price } :: renumber (start + 1) rest


/-- What the menu text format relies on: no item name contains a newline, and
the menu is not empty. -/
def FoodOrderingSystem.TextInv (s : FoodOrderingSystem) : Prop :=
  (∀ it ∈ s.menu_list, '\n' ∉ it.name) ∧ s.menu_list ≠ []

/-- The default menu after the admin adds "Candy" at the price 0.0625. -/
def candySystem : FoodOrderingSystem :=
  (defaultSystem.addNewItem "Candy\n".toList (1 / 16)).2


namespace FoodOrderingSystem

end FoodOrderingSystem

/-- The default system after ordering 1 soda (1.50) and 1 water (1.00), the
admin raising the price of soda to 2.50, and the customer removing the soda. -/
def sodaWaterSession : List Op :=
  [.takeOrder [(4, 1), (5, 1), (0, 0)], .updateItemPrice 4 (5 / 2), .modifyOrder 4 1]

/-- The default menu with soda repriced to 2.50, an order holding 1 water and
the cached total 0. -/
def waterLeft : FoodOrderingSystem :=
  { (defaultSystem.updateItemPrice 4 (5 / 2)).2 with
    current_order := { items := [(5, 1)], total_cost := 0 } }


/-- The system constructed from a menu file whose only line is
"Tap Water,0.00", after ordering 1 of that item. -/
def freeItemOrder : FoodOrderingSystem :=
  (FoodOrderingSystem.construct extractDouble (some "Tap Water,0.00\n".toList)).takeOrder
    [(1, 1), (0, 0)]


/-! ## `Order::displayOrder` -/

/-- The item lines the loop of `displayOrder` prints: for each entry of the
order, in key order, the quantity, the item name and `price * qty`; an entry
whose id is not in `menu_map` is skipped. -/
def Order.displayLines (menu_map : IntMap MenuItem) :
    IntMap Int → List (Int × List Char × ℚ)
  | [] => []
  | (id, qty) :: rest =>
    match IntMap.find id menu_map with
    | some item => (qty, item.name, item.price * qty) :: Order.displayLines menu_map rest
    | none => Order.displayLines menu_map rest

/-- `Order::displayOrder`: `none` is the "Order is currently empty" message,
otherwise the item lines and the total amount due. -/
def Order.displayOrder (o : Order) (menu_map : IntMap MenuItem) :
    Option (List (Int × List Char × ℚ) × ℚ) :=
  if o.items = [] then none
  else some (Order.displayLines menu_map o.items, o.total_cost)


/-! # Theorems -/

/-! ## Facts about the map model -/

namespace IntMap

variable {V : Type}

theorem find_insert_self (k : Int) (v : V) (m : IntMap V) :
    find k (insert k v m) = some v := by
  induction m with
  | nil => simp [insert, find]
  | cons hd t ih =>
    obtain ⟨k', v'⟩ := hd
    by_cases h1 : k < k'
    · simp [insert, find, h1]
    · by_cases h2 : k = k'
      · simp [insert, find, h1, h2]
      · simp [insert, find, h1, h2, ih]

theorem find_insert_ne {k j : Int} (h : j ≠ k) (v : V) (m : IntMap V) :
    find j (insert k v m) = find j m := by
  induction m with
  | nil => simp [insert, find, h]
  | cons hd t ih =>
    obtain ⟨k', v'⟩ := hd
    by_cases h1 : k < k'
    · simp [insert, find, h1, h]
    · by_cases h2 : k = k'
      · subst h2
        simp [insert, find, h]
      · by_cases h3 : j = k'
        · simp [insert, find, h1, h2, h3]
        · simp [insert, find, h1, h2, h3, ih]

theorem find_erase_ne {k j : Int} (h : j ≠ k) (m : IntMap V) :
    find j (erase k m) = find j m := by
  induction m with
  | nil => simp [erase, find]
  | cons hd t ih =>
    obtain ⟨k', v'⟩ := hd
    by_cases h2 : k = k'
    · subst h2
      simp [erase, find, h]
    · by_cases h3 : j = k'
      · simp [erase, find, h2, h3]
      · simp [erase, find, h2, h3, ih]

theorem find_isSome_iff_mem_keys (k : Int) (m : IntMap V) :
    (find k m).isSome = true ↔ k ∈ keys m := by
  induction m with
  | nil => simp [find, keys]
  | cons hd t ih =>
    obtain ⟨k', v'⟩ := hd
    by_cases h : k = k'
    · simp [find, keys, h]
    · simp only [keys] at ih
      simp [find, keys, h, ih]

theorem find_eq_none_iff (k : Int) (m : IntMap V) :
    find k m = none ↔ k ∉ keys m := by
  rw [← find_isSome_iff_mem_keys]
  cases find k m <;> simp

theorem mem_keys_of_find {k : Int} {v : V} {m : IntMap V} (h : find k m = some v) :
    k ∈ keys m := by
  rw [← find_isSome_iff_mem_keys, h]; rfl

theorem mem_of_find {k : Int} {v : V} {m : IntMap V} (h : find k m = some v) :
    (k, v) ∈ m := by
  induction m with
  | nil => simp [find] at h
  | cons hd t ih =>
    obtain ⟨k', v'⟩ := hd
    by_cases h2 : k = k'
    · subst h2
      simp [find] at h
      simp [h]
    · simp [find, h2] at h
      exact List.mem_cons_of_mem _ (ih h)

theorem wf_cons {k : Int} {v : V} {t : IntMap V} :
    WF ((k, v) :: t) ↔ (∀ j ∈ keys t, k < j) ∧ WF t := by
  simp [WF, keys, List.pairwise_cons]

theorem wf_nil : WF ([] : IntMap V) := by simp [WF, keys]

theorem find_of_mem {k : Int} {v : V} {m : IntMap V} (hwf : WF m) (h : (k, v) ∈ m) :
    find k m = some v := by
  induction m with
  | nil => simp at h
  | cons hd t ih =>
    obtain ⟨k', v'⟩ := hd
    obtain ⟨hlt, hwt⟩ := wf_cons.mp hwf
    rcases List.mem_cons.mp h with heq | hmem
    · cases heq
      simp [find]
    · have hk : k ∈ keys t := by
        simp only [keys, List.mem_map]
        exact ⟨(k, v), hmem, rfl⟩
      have hne : k ≠ k' := by
        have := hlt k hk
        omega
      simp [find, hne, ih hwt hmem]

theorem mem_keys_insert {k j : Int} {v : V} {m : IntMap V} :
    j ∈ keys (insert k v m) ↔ j = k ∨ j ∈ keys m := by
  rw [← find_isSome_iff_mem_keys, ← find_isSome_iff_mem_keys]
  by_cases h : j = k
  · subst h
    simp [find_insert_self]
  · simp [find_insert_ne h, h]

theorem wf_insert {k : Int} {v : V} {m : IntMap V} (hwf : WF m) : WF (insert k v m) := by
  induction m with
  | nil => simp [insert, WF, keys]
  | cons hd t ih =>
    obtain ⟨k', v'⟩ := hd
    obtain ⟨hlt, hwt⟩ := wf_cons.mp hwf
    by_cases h1 : k < k'
    · simp only [insert, h1, if_true]
      refine wf_cons.mpr ⟨?_, hwf⟩
      intro j hj
      simp only [keys, List.map_cons, List.mem_cons] at hj
      rcases hj with rfl | hj
      · exact h1
      · have := hlt j hj
        omega
    · by_cases h2 : k = k'
      · subst h2
        simp only [insert, h1, if_false, if_true]
        exact wf_cons.mpr ⟨hlt, hwt⟩
      · simp only [insert, h1, h2, if_false]
        refine wf_cons.mpr ⟨?_, ih hwt⟩
        intro j hj
        rcases mem_keys_insert.mp hj with rfl | hj
        · omega
        · exact hlt j hj

theorem mem_keys_erase {k j : Int} {m : IntMap V} (h : j ∈ keys (erase k m)) :
    j ∈ keys m := by
  induction m with
  | nil => simp [erase, keys] at h
  | cons hd t ih =>
    obtain ⟨k', v'⟩ := hd
    by_cases h2 : k = k'
    · simp only [erase, h2, if_true] at h
      simp only [keys, List.map_cons, List.mem_cons]
      exact Or.inr h
    · simp only [erase, h2, if_false, keys, List.map_cons, List.mem_cons] at h
      simp only [keys, List.map_cons, List.mem_cons]
      rcases h with h | h
      · exact Or.inl h
      · exact Or.inr (ih h)

theorem wf_erase {k : Int} {m : IntMap V} (hwf : WF m) : WF (erase k m) := by
  induction m with
  | nil => simp [erase, WF, keys]
  | cons hd t ih =>
    obtain ⟨k', v'⟩ := hd
    obtain ⟨hlt, hwt⟩ := wf_cons.mp hwf
    by_cases h2 : k = k'
    · simp only [erase, h2, if_true]
      exact hwt
    · simp only [erase, h2, if_false]
      exact wf_cons.mpr ⟨fun j hj => hlt j (mem_keys_erase hj), ih hwt⟩

theorem find_erase_self {k : Int} {m : IntMap V} (hwf : WF m) :
    find k (erase k m) = none := by
  induction m with
  | nil => simp [erase, find]
  | cons hd t ih =>
    obtain ⟨k', v'⟩ := hd
    obtain ⟨hlt, hwt⟩ := wf_cons.mp hwf
    by_cases h2 : k = k'
    · subst h2
      simp only [erase, if_true]
      rw [find_eq_none_iff]
      intro hmem
      have := hlt k hmem
      omega
    · simp [erase, find, h2, ih hwt]

theorem erase_of_not_mem {k : Int} {m : IntMap V} (h : find k m = none) :
    erase k m = m := by
  induction m with
  | nil => simp [erase]
  | cons hd t ih =>
    obtain ⟨k', v'⟩ := hd
    by_cases h2 : k = k'
    · simp [find, h2] at h
    · simp only [find, h2, if_false] at h
      simp [erase, h2, ih h]

theorem insert_erase_self {k : Int} {v : V} {m : IntMap V} (hwf : WF m)
    (h : find k m = some v) : insert k v (erase k m) = m := by
  induction m with
  | nil => simp [find] at h
  | cons hd t ih =>
    obtain ⟨k', v'⟩ := hd
    obtain ⟨hlt, hwt⟩ := wf_cons.mp hwf
    by_cases h2 : k = k'
    · subst h2
      simp only [find, if_true, Option.some.injEq] at h
      subst h
      simp only [erase, if_true]
      cases t with
      | nil => simp [insert]
      | cons hd2 t2 =>
        obtain ⟨k2, v2⟩ := hd2
        have : k < k2 := hlt k2 (by simp [keys])
        simp [insert, this]
    · simp only [find, h2, if_false] at h
      have hk : k ∈ keys t := mem_keys_of_find h
      have hlt2 : ¬ k < k' := by
        have := hlt k hk
        omega
      simp [erase, insert, h2, hlt2, ih hwt h]

theorem insert_self {k : Int} {v : V} {m : IntMap V} (hwf : WF m)
    (h : find k m = some v) : insert k v m = m := by
  induction m with
  | nil => simp [find] at h
  | cons hd t ih =>
    obtain ⟨k', v'⟩ := hd
    obtain ⟨hlt, hwt⟩ := wf_cons.mp hwf
    by_cases h2 : k = k'
    · subst h2
      simp only [find, if_true, Option.some.injEq] at h
      subst h
      simp [insert]
    · simp only [find, h2, if_false] at h
      have hk : k ∈ keys t := mem_keys_of_find h
      have h1 : ¬ k < k' := by
        have := hlt k hk
        omega
      simp [insert, h1, h2, ih hwt h]

theorem insert_insert (k : Int) (v w : V) (m : IntMap V) :
    insert k v (insert k w m) = insert k v m := by
  induction m with
  | nil => simp [insert]
  | cons hd t ih =>
    obtain ⟨k', v'⟩ := hd
    by_cases h1 : k < k'
    · simp [insert, h1]
    · by_cases h2 : k = k'
      · simp [insert, h1, h2]
      · simp [insert, h1, h2, ih]

end IntMap

/-! ## Facts about `lineSum` and the order invariant -/

theorem find_eq_none_of_lt {V : Type} {k : Int} {m : IntMap V}
    (h : ∀ j ∈ IntMap.keys m, k < j) : IntMap.find k m = none := by
  rw [IntMap.find_eq_none_iff]
  intro hk
  have := h k hk
  omega

theorem lineSum_insert (price : Int → ℚ) (k v : Int) {m : IntMap Int} (hwf : IntMap.WF m) :
    lineSum price (IntMap.insert k v m)
      = lineSum price m - price k * (((IntMap.find k m).getD 0 : Int) : ℚ) + price k * (v : ℚ) := by
  induction m with
  | nil => simp [IntMap.insert, IntMap.find, lineSum]
  | cons hd t ih =>
    obtain ⟨k', v'⟩ := hd
    obtain ⟨hlt, hwt⟩ := IntMap.wf_cons.mp hwf
    by_cases h1 : k < k'
    · have hne : k ≠ k' := by omega
      have hnone : IntMap.find k t = none :=
        find_eq_none_of_lt (fun j hj => by have := hlt j hj; omega)
      simp only [IntMap.insert, h1, if_true, IntMap.find, hne, if_false, hnone]
      simp [lineSum]
      ring
    · by_cases h2 : k = k'
      · subst h2
        simp only [IntMap.insert, h1, if_false, if_true, IntMap.find]
        simp [lineSum]
        ring
      · have ih' := ih hwt
        simp only [lineSum] at ih'
        simp only [IntMap.insert, h1, h2, if_false, IntMap.find, lineSum, List.map_cons,
          List.sum_cons, ih']
        ring

theorem lineSum_erase (price : Int → ℚ) (k : Int) {m : IntMap Int} (hwf : IntMap.WF m) :
    lineSum price (IntMap.erase k m)
      = lineSum price m - price k * (((IntMap.find k m).getD 0 : Int) : ℚ) := by
  induction m with
  | nil => simp [IntMap.erase, IntMap.find, lineSum]
  | cons hd t ih =>
    obtain ⟨k', v'⟩ := hd
    obtain ⟨hlt, hwt⟩ := IntMap.wf_cons.mp hwf
    by_cases h2 : k = k'
    · subst h2
      simp only [IntMap.erase, if_true, IntMap.find]
      simp [lineSum]
    · have ih' := ih hwt
      simp only [lineSum] at ih'
      simp only [IntMap.erase, h2, if_false, IntMap.find, lineSum, List.map_cons,
        List.sum_cons, ih']
      ring

namespace Order

theorem inv_empty : Inv empty := by
  refine ⟨IntMap.wf_nil, ?_⟩
  intro k s h
  simp [empty, IntMap.find] at h

theorem inv_clear (o : Order) : Inv o.clear := inv_empty

theorem inv_addItem {o : Order} (h : Inv o) (i q : Int) (p : ℚ) : Inv (o.addItem i q p) := by
  unfold addItem
  split
  · rename_i hq
    refine ⟨IntMap.wf_insert h.1, ?_⟩
    intro k s hk
    simp only at hk
    by_cases hki : k = i
    · subst hki
      rw [IntMap.find_insert_self] at hk
      cases hk
      cases hf : IntMap.find k o.items with
      | none => simp; omega
      | some s0 =>
        have := h.2 k s0 hf
        simp; omega
    · rw [IntMap.find_insert_ne hki] at hk
      exact h.2 k s hk
  · exact h

theorem inv_removeItem {o : Order} (h : Inv o) (i q : Int) (p : ℚ) :
    Inv (o.removeItem i q p).2 := by
  unfold removeItem
  split
  · rename_i stored hst
    split
    · refine ⟨IntMap.wf_erase h.1, ?_⟩
      intro k s hk
      simp only at hk
      by_cases hki : k = i
      · subst hki
        rw [IntMap.find_erase_self h.1] at hk
        cases hk
      · rw [IntMap.find_erase_ne hki] at hk
        exact h.2 k s hk
    · rename_i hge
      split
      · refine ⟨IntMap.wf_insert h.1, ?_⟩
        intro k s hk
        simp only at hk
        by_cases hki : k = i
        · subst hki
          rw [IntMap.find_insert_self] at hk
          cases hk
          omega
        · rw [IntMap.find_insert_ne hki] at hk
          exact h.2 k s hk
      · exact h
  · exact h

theorem inv_call {o : Order} (h : Inv o) (c : OrderCall) : Inv (o.call c) := by
  cases c with
  | addItem i q p => exact inv_addItem h i q p
  | removeItem i q p => exact inv_removeItem h i q p
  | clear => exact inv_clear o

theorem inv_runCalls {o : Order} (h : Inv o) (cs : List OrderCall) : Inv (o.runCalls cs) := by
  induction cs generalizing o with
  | nil => exact h
  | cons c cs ih => exact ih (inv_call h c)

theorem inv_of_reachable {o : Order} (h : Reachable o) : Inv o := by
  obtain ⟨cs, rfl⟩ := h
  exact inv_runCalls inv_empty cs

end Order

/-! ## The cached total of an order -/

theorem Order.priced_empty (price : Int → ℚ) : Order.Priced price Order.empty :=
  ⟨Order.inv_empty, by simp [Order.empty, lineSum]⟩

theorem Order.priced_addItem {price : Int → ℚ} {o : Order} (h : o.Priced price)
    (i q : Int) : (o.addItem i q (price i)).Priced price := by
  refine ⟨Order.inv_addItem h.1 i q (price i), ?_⟩
  unfold Order.addItem
  split
  · simp only
    rw [lineSum_insert price i _ h.1.1, h.2]
    push_cast
    ring
  · exact h.2

theorem Order.priced_removeItem {price : Int → ℚ} {o : Order} (h : o.Priced price)
    (i q : Int) : (o.removeItem i q (price i)).2.Priced price := by
  refine ⟨Order.inv_removeItem h.1 i q (price i), ?_⟩
  unfold Order.removeItem
  split
  · rename_i stored hst
    split
    · simp only
      rw [lineSum_erase price i h.1.1, h.2, hst]
      simp
    · split
      · simp only
        rw [lineSum_insert price i _ h.1.1, h.2, hst]
        push_cast
        simp only [Option.getD_some]
        ring
      · exact h.2
  · exact h.2

theorem priced_applyLine (menu_map : IntMap MenuItem) {o : Order}
    (h : o.Priced (catalogPrice menu_map)) (op : LineOp) :
    (applyLine menu_map o op).Priced (catalogPrice menu_map) := by
  cases op with
  | add i q => exact Order.priced_addItem h i q
  | remove i q => exact Order.priced_removeItem h i q

theorem priced_applyLines (menu_map : IntMap MenuItem) {o : Order}
    (h : o.Priced (catalogPrice menu_map)) (ops : List LineOp) :
    (applyLines menu_map o ops).Priced (catalogPrice menu_map) := by
  induction ops generalizing o with
  | nil => exact h
  | cons op ops ih => exact ih (priced_applyLine menu_map h op)

/-- C1. Total invariant: for a fixed catalog and every finite sequence of line
additions and removals, each performed with the catalog price of a known id and
starting from the empty order, the cached total returned by `getTotal` equals
the sum over the entries of the order of stored quantity times the catalog
price of the id. -/
theorem total_invariant (menu_map : IntMap MenuItem) (ops : List LineOp)
    (_hknown : ∀ op ∈ ops, IntMap.count op.itemId menu_map = true) :
    (applyLines menu_map Order.empty ops).getTotal
      = lineSum (catalogPrice menu_map) (applyLines menu_map Order.empty ops).items :=
  (priced_applyLines menu_map (Order.priced_empty _) ops).2

/-- C1 on the default catalog: adding 2 of item 1 (5.99) and 3 of item 4 (1.50)
gives the total 16.48, removing 1 of item 1 then gives 10.49, and both totals
are the line sums of the stored quantities. -/
theorem total_invariant_witness :
    (∀ op ∈ [LineOp.add 1 2, LineOp.add 4 3, LineOp.remove 1 1],
        IntMap.count op.itemId (FoodOrderingSystem.construct extractDouble none).menu_map = true)
    ∧ (applyLines (FoodOrderingSystem.construct extractDouble none).menu_map Order.empty
        [LineOp.add 1 2, LineOp.add 4 3, LineOp.remove 1 1]).getTotal
      = lineSum (catalogPrice (FoodOrderingSystem.construct extractDouble none).menu_map)
          (applyLines (FoodOrderingSystem.construct extractDouble none).menu_map Order.empty
            [LineOp.add 1 2, LineOp.add 4 3, LineOp.remove 1 1]).items
    ∧ (applyLines (FoodOrderingSystem.construct extractDouble none).menu_map Order.empty
        [LineOp.add 1 2, LineOp.add 4 3])
      = { items := [(1, 2), (4, 3)], total_cost := 1648 / 100 }
    ∧ (applyLines (FoodOrderingSystem.construct extractDouble none).menu_map Order.empty
        [LineOp.add 1 2, LineOp.add 4 3, LineOp.remove 1 1])
      = { items := [(1, 1), (4, 3)], total_cost := 1049 / 100 } :=
  ⟨by decide!,
   total_invariant _ _ (by decide!),
   by decide!, by decide!⟩

/-! ## The contract of `removeItem` -/

/-- C3. Remove contract: in an order reachable from the empty order by
`addItem`/`removeItem`/`clear`, `removeItem(id, q, p)` returns false and changes
nothing when `id` is absent or `q ≤ 0`; erases the entry and lowers the total by
`s * p` when the stored quantity `s` satisfies `q ≥ s`; leaves the positive
quantity `s - q` and lowers the total by `q * p` when `0 < q < s`; and in every
case leaves the entries of all other ids as they were. -/
theorem removeItem_contract (o : Order) (hreach : o.Reachable) (id q : Int) (p : ℚ) :
    (∀ k s, IntMap.find k o.items = some s → 0 < s)
    ∧ ((IntMap.find id o.items = none ∨ q ≤ 0) → o.removeItem id q p = (false, o))
    ∧ (∀ s, IntMap.find id o.items = some s → q ≥ s →
        (o.removeItem id q p).1 = true
        ∧ IntMap.find id (o.removeItem id q p).2.items = none
        ∧ id ∉ IntMap.keys (o.removeItem id q p).2.items
        ∧ (o.removeItem id q p).2.getTotal = o.getTotal - (s : ℚ) * p)
    ∧ (∀ s, IntMap.find id o.items = some s → 0 < q → q < s →
        (o.removeItem id q p).1 = true
        ∧ IntMap.find id (o.removeItem id q p).2.items = some (s - q)
        ∧ 0 < s - q
        ∧ (o.removeItem id q p).2.getTotal = o.getTotal - (q : ℚ) * p)
    ∧ (∀ j, j ≠ id →
        IntMap.find j (o.removeItem id q p).2.items = IntMap.find j o.items) := by
  have hinv := Order.inv_of_reachable hreach
  refine ⟨hinv.2, ?_, ?_, ?_, ?_⟩
  · rintro (hnone | hq)
    · simp [Order.removeItem, hnone]
    · cases hf : IntMap.find id o.items with
      | none => simp [Order.removeItem, hf]
      | some s =>
        have hs := hinv.2 id s hf
        have h1 : ¬ q ≥ s := by omega
        have h2 : ¬ q > 0 := by omega
        simp [Order.removeItem, hf, h1, h2]
  · intro s hf hge
    have hnone : IntMap.find id (IntMap.erase id o.items) = none :=
      IntMap.find_erase_self hinv.1
    simp only [Order.removeItem, hf, hge, if_true, Order.getTotal, hnone, true_and]
    refine ⟨?_, by ring⟩
    rw [← IntMap.find_eq_none_iff]
    exact hnone
  · intro s hf hpos hlt
    have h1 : ¬ q ≥ s := by omega
    have h2 : q > 0 := hpos
    simp only [Order.removeItem, hf, h1, h2, if_true, if_false, Order.getTotal,
      IntMap.find_insert_self, true_and]
    exact ⟨by omega, by ring⟩
  · intro j hj
    unfold Order.removeItem
    split
    · split
      · exact IntMap.find_erase_ne hj _
      · split
        · exact IntMap.find_insert_ne hj _ _
        · rfl
    · rfl

/-- C3 at the order holding 2 of item 1 and 3 of item 4: removing 1 of item 1
at 5.99 succeeds and leaves 1 of item 1, and removing 0 of it is refused. -/
theorem removeItem_contract_witness :
    ((Order.empty.addItem 1 2 (599 / 100)).addItem 4 3 (3 / 2)).Reachable
    ∧ (((Order.empty.addItem 1 2 (599 / 100)).addItem 4 3 (3 / 2)).removeItem 1 1 (599 / 100)).1
        = true
    ∧ IntMap.find 1
        (((Order.empty.addItem 1 2 (599 / 100)).addItem 4 3 (3 / 2)).removeItem 1 1
          (599 / 100)).2.items = some (2 - 1)
    ∧ ((Order.empty.addItem 1 2 (599 / 100)).addItem 4 3 (3 / 2)).removeItem 1 0 (599 / 100)
        = (false, (Order.empty.addItem 1 2 (599 / 100)).addItem 4 3 (3 / 2)) := by
  have hreach : ((Order.empty.addItem 1 2 (599 / 100)).addItem 4 3 (3 / 2)).Reachable :=
    ⟨[.addItem 1 2 (599 / 100), .addItem 4 3 (3 / 2)], rfl⟩
  have h := removeItem_contract _ hreach 1 1 (599 / 100)
  have h0 := removeItem_contract _ hreach 1 0 (599 / 100)
  have hf : IntMap.find 1 ((Order.empty.addItem 1 2 (599 / 100)).addItem 4 3 (3 / 2)).items
      = some 2 := by decide!
  obtain ⟨h1, h2, _, _⟩ := h.2.2.2.1 2 hf (by decide) (by decide)
  exact ⟨hreach, h1, h2, h0.2.1 (Or.inr (by decide))⟩

/-! ## Removing and adding back -/

/-- C6. Remove then re-add restores the order: in a reachable order where `id`
has stored quantity `s`, for every `q ≤ s` and every unit price `p`,
`removeItem(id, q, p)` followed by `addItem(id, q, p)` gives back the same line
items (so `id` again has quantity `s`) and the same total. -/
theorem remove_then_add_restores (o : Order) (hreach : o.Reachable) (id s q : Int) (p : ℚ)
    (hs : IntMap.find id o.items = some s) (hq : s ≥ q) :
    ((o.removeItem id q p).2.addItem id q p).items = o.items
    ∧ IntMap.find id ((o.removeItem id q p).2.addItem id q p).items = some s
    ∧ ((o.removeItem id q p).2.addItem id q p).getTotal = o.getTotal := by
  have hinv := Order.inv_of_reachable hreach
  have hpos := hinv.2 id s hs
  have key : (o.removeItem id q p).2.addItem id q p = o := by
    obtain ⟨items, total⟩ := o
    simp only at hs hinv
    by_cases hq0 : q > 0
    · by_cases hqs : q ≥ s
      · have hqe : q = s := by omega
        subst hqe
        have hnone : IntMap.find id (IntMap.erase id items) = none :=
          IntMap.find_erase_self hinv.1
        simp only [Order.removeItem, hs, hqs, if_true, Order.addItem, hq0, hnone,
          Option.getD_none, zero_add, IntMap.insert_erase_self hinv.1 hs]
        congr 1
        ring
      · simp only [Order.removeItem, hs, hqs, if_false, hq0, if_true, Order.addItem,
          IntMap.find_insert_self, Option.getD_some, IntMap.insert_insert]
        have hsq : s - q + q = s := by omega
        rw [hsq, IntMap.insert_self hinv.1 hs]
        congr 1
        ring
    · have hqs : ¬ q ≥ s := by omega
      simp [Order.removeItem, hs, hqs, hq0, Order.addItem]
  rw [key]
  exact ⟨rfl, hs, rfl⟩

/-- C6 at the order holding 2 of item 1 and 3 of item 4: removing both of
item 1 at 5.99 and adding them back restores the order. -/
theorem remove_then_add_restores_witness :
    ((Order.empty.addItem 1 2 (599 / 100)).addItem 4 3 (3 / 2)).Reachable
    ∧ IntMap.find 1 ((Order.empty.addItem 1 2 (599 / 100)).addItem 4 3 (3 / 2)).items = some 2
    ∧ ((((Order.empty.addItem 1 2 (599 / 100)).addItem 4 3 (3 / 2)).removeItem 1 2
          (599 / 100)).2.addItem 1 2 (599 / 100)).items
        = ((Order.empty.addItem 1 2 (599 / 100)).addItem 4 3 (3 / 2)).items
    ∧ ((((Order.empty.addItem 1 2 (599 / 100)).addItem 4 3 (3 / 2)).removeItem 1 2
          (599 / 100)).2.addItem 1 2 (599 / 100)).getTotal
        = ((Order.empty.addItem 1 2 (599 / 100)).addItem 4 3 (3 / 2)).getTotal :=
  have hreach : ((Order.empty.addItem 1 2 (599 / 100)).addItem 4 3 (3 / 2)).Reachable :=
    ⟨[.addItem 1 2 (599 / 100), .addItem 4 3 (3 / 2)], rfl⟩
  have h := remove_then_add_restores _ hreach 1 2 2 (599 / 100) (by decide!) (by decide)
  ⟨hreach, by decide!, h.1, h.2.2⟩

/-! ## Payment -/

namespace FoodOrderingSystem

theorem payLoop_reject {total a : ℚ} (ht : 0 < total) (ha : a < total) (rest : List ℚ) :
    payLoop total (a :: rest) 0 = payLoop total rest 0 := by
  simp [payLoop, ht, ha]

theorem payLoop_accept {total a : ℚ} (ht : 0 < total) (ha : total ≤ a) (rest : List ℚ) :
    payLoop total (a :: rest) 0 = some a := by
  have h1 : ¬ a < total := not_lt.mpr ha
  simp only [payLoop, ht, if_true, h1, if_false]
  cases rest <;> simp [payLoop, h1]

end FoodOrderingSystem

/-- C2 (amended). Checkout: when the order total `t` is positive, `processPayment`
rejects a tendered amount `a < t` (the loop asks again, and with no further
input the state, order included, is unchanged), and for `a ≥ t` it completes
the payment with change exactly `a - t` and leaves an order with no line items
and total 0. -/
theorem processPayment_positive_total (s : FoodOrderingSystem) (a : ℚ) (rest : List ℚ)
    (ht : 0 < s.current_order.getTotal) :
    (a < s.current_order.getTotal →
        s.processPayment (a :: rest) = s.processPayment rest
        ∧ s.processPayment [a] = (.insufficient, s))
    ∧ (a ≥ s.current_order.getTotal →
        s.processPayment (a :: rest)
          = (.complete (a - s.current_order.getTotal),
             { s with current_order := { items := [], total_cost := 0 } })) := by
  have hne : ¬ s.current_order.getTotal = 0 := ne_of_gt ht
  constructor
  · intro ha
    constructor
    · simp only [FoodOrderingSystem.processPayment, hne, if_false,
        FoodOrderingSystem.payLoop_reject ht ha]
    · have h0 : FoodOrderingSystem.payLoop s.current_order.getTotal [a] 0 = none := by
        simp [FoodOrderingSystem.payLoop, ht, ha]
      simp only [FoodOrderingSystem.processPayment, hne, if_false, h0]
  · intro ha
    simp only [FoodOrderingSystem.processPayment, hne, if_false,
      FoodOrderingSystem.payLoop_accept ht ha, Order.clear]

/-- C2 at the order with total 12.50: tendering 12.50 gives change 0.00 and
clears the order, tendering 10.00 is insufficient and leaves the state as it
was, tendering 20.00 gives change 7.50 and clears the order. -/
theorem processPayment_positive_total_witness :
    0 < order1250.current_order.getTotal
    ∧ order1250.current_order.getTotal = 1250 / 100
    ∧ order1250.processPayment [1250 / 100]
        = (.complete (1250 / 100 - order1250.current_order.getTotal),
           { order1250 with current_order := { items := [], total_cost := 0 } })
    ∧ (1250 / 100 - order1250.current_order.getTotal = 0)
    ∧ order1250.processPayment [10] = (.insufficient, order1250)
    ∧ order1250.processPayment [20]
        = (.complete (20 - order1250.current_order.getTotal),
           { order1250 with current_order := { items := [], total_cost := 0 } })
    ∧ (20 - order1250.current_order.getTotal = 750 / 100) :=
  ⟨by decide!, by decide!,
   (processPayment_positive_total order1250 (1250 / 100) [] (by decide!)).2 (by decide!),
   by decide!,
   ((processPayment_positive_total order1250 10 [] (by decide!)).1 (by decide!)).2,
   (processPayment_positive_total order1250 20 [] (by decide!)).2 (by decide!),
   by decide!⟩

/-- C2 as stated fails for a negative total: after ordering a soda, repricing
it from 1.50 to 2.50 and removing it, the total is -1, which is non-zero;
tendering -2 (less than the total) is not rejected: the payment loop is not
entered, the payment completes with change 1 and the order total is reset. -/
theorem processPayment_nonzero_total_counterexample :
    defaultSystem.run sodaSession = some negativeTotal
    ∧ negativeTotal.current_order.getTotal ≠ 0
    ∧ (-2 : ℚ) < negativeTotal.current_order.getTotal
    ∧ negativeTotal.processPayment [-2]
        = (.complete 1, { negativeTotal with current_order := { items := [], total_cost := 0 } })
    ∧ negativeTotal.processPayment [-2] ≠ (.insufficient, negativeTotal)
    ∧ (negativeTotal.processPayment [-2]).2.current_order ≠ negativeTotal.current_order := by
  refine ⟨by decide!, by decide!, by decide!, by decide!, by decide!, by decide!⟩

/-! ## The catalog invariant -/

theorem keys_map_pairOf (l : List MenuItem) :
    IntMap.keys (l.map pairOf) = l.map MenuItem.id := by
  simp [IntMap.keys, pairOf, List.map_map, Function.comp_def]

theorem idsFrom1_succ (n : Nat) : idsFrom1 (n + 1) = idsFrom1 n ++ [(n : Int) + 1] := by
  simp [idsFrom1, List.range_succ]

theorem mem_idsFrom1 {n : Nat} {k : Int} : k ∈ idsFrom1 n ↔ 1 ≤ k ∧ k ≤ (n : Int) := by
  simp only [idsFrom1, List.mem_map, List.mem_range]
  constructor
  · rintro ⟨i, hi, rfl⟩
    constructor
    · have : (0 : Int) ≤ (i : Int) := Int.ofNat_nonneg i
      omega
    · have : (i : Int) < (n : Int) := Int.ofNat_lt.mpr hi
      omega
  · rintro ⟨h1, h2⟩
    refine ⟨(k - 1).toNat, ?_, ?_⟩
    · have : ((k - 1).toNat : Int) = k - 1 := Int.toNat_of_nonneg (by omega)
      have h3 : ((k - 1).toNat : Int) < (n : Int) := by omega
      exact Int.ofNat_lt.mp h3
    · have : ((k - 1).toNat : Int) = k - 1 := Int.toNat_of_nonneg (by omega)
      omega

theorem idsFrom1_pairwise (n : Nat) : (idsFrom1 n).Pairwise (· < ·) := by
  induction n with
  | zero => simp [idsFrom1]
  | succ n ih =>
    rw [idsFrom1_succ, List.pairwise_append]
    refine ⟨ih, by simp, ?_⟩
    intro a ha b hb
    simp only [List.mem_singleton] at hb
    have := (mem_idsFrom1.mp ha).2
    omega

theorem insert_last {V : Type} {k : Int} (v : V) {m : IntMap V}
    (h : ∀ j ∈ IntMap.keys m, j < k) : IntMap.insert k v m = m ++ [(k, v)] := by
  induction m with
  | nil => simp [IntMap.insert]
  | cons hd t ih =>
    obtain ⟨k', v'⟩ := hd
    have hk : k' < k := h k' (by simp [IntMap.keys])
    have h1 : ¬ k < k' := by omega
    have h2 : ¬ k = k' := by omega
    have ht : ∀ j ∈ IntMap.keys t, j < k := fun j hj =>
      h j (by simp only [IntMap.keys, List.map_cons, List.mem_cons] at hj ⊢; exact Or.inr hj)
    simp [IntMap.insert, h1, h2, ih ht]

theorem append_item_inv (l : List MenuItem) (name : List Char) (price : ℚ)
    (hids : l.map MenuItem.id = idsFrom1 l.length) :
    IntMap.insert ((l.length : Int) + 1) (MenuItem.mk ((l.length : Int) + 1) name price)
        (l.map pairOf)
        = (l ++ [MenuItem.mk ((l.length : Int) + 1) name price]).map pairOf
    ∧ (l ++ [MenuItem.mk ((l.length : Int) + 1) name price]).map MenuItem.id
        = idsFrom1 (l ++ [MenuItem.mk ((l.length : Int) + 1) name price]).length := by
  constructor
  · rw [insert_last]
    · simp [pairOf]
    · intro j hj
      rw [keys_map_pairOf, hids] at hj
      have := (mem_idsFrom1.mp hj).2
      omega
  · simp [List.length_append, idsFrom1_succ, hids]

theorem loadInv_loadLine (extract : List Char → Option ℚ) {st : LoadState} (h : LoadInv st)
    (line : List Char) : LoadInv (loadLine extract st line) := by
  obtain ⟨l, m, cid⟩ := st
  obtain ⟨hm, hids, hcid⟩ := h
  simp only at hm hids hcid
  unfold loadLine
  cases hr : rfind ',' line with
  | none => exact ⟨hm, hids, hcid⟩
  | some comma_pos =>
    simp only
    cases he : extract (List.drop (comma_pos + 1) line) with
    | none => exact ⟨hm, hids, hcid⟩
    | some price_part =>
      simp only
      subst hm hcid
      obtain ⟨h1, h2⟩ := append_item_inv l (List.take comma_pos line) price_part hids
      refine ⟨h1, h2, ?_⟩
      simp

theorem loadInv_foldl (extract : List Char → Option ℚ) {st : LoadState} (h : LoadInv st)
    (lines : List (List Char)) : LoadInv (lines.foldl (loadLine extract) st) := by
  induction lines generalizing st with
  | nil => exact h
  | cons line lines ih => exact ih (loadInv_loadLine extract h line)

theorem loadInv_init : LoadInv (([], [], 1) : LoadState) := by
  simp [LoadInv, idsFrom1]

theorem foldl_raise_id (l : List MenuItem) (n : Int) (h : ∀ it ∈ l, it.id < n) :
    l.foldl (fun n item => if item.id ≥ n then item.id + 1 else n) n = n := by
  induction l with
  | nil => rfl
  | cons it rest ih =>
    have h1 : ¬ it.id ≥ n := by
      have := h it (by simp)
      omega
    simp only [List.foldl_cons, h1, if_false]
    exact ih (fun x hx => h x (List.mem_cons_of_mem _ hx))

namespace FoodOrderingSystem

theorem construct_of_load_false (extract : List Char → Option ℚ) (file : Option (List Char))
    (s : FoodOrderingSystem) (h : loadMenuFromFile extract initial file = (false, s))
    (hl : s.menu_list = []) (hm : s.menu_map = []) :
    (construct extract file).menu_list = defaults
    ∧ (construct extract file).menu_map = defaults.map pairOf
    ∧ (construct extract file).next_available_id = 7
    ∧ (construct extract file).current_order = s.current_order := by
  obtain ⟨ml, mm, o, n⟩ := s
  simp only at hl hm
  subst hl hm
  unfold construct
  rw [h]
  exact ⟨rfl, rfl, rfl, rfl⟩

theorem load_current_order (extract : List Char → Option ℚ) (s : FoodOrderingSystem)
    (file : Option (List Char)) :
    (loadMenuFromFile extract s file).2.current_order = s.current_order := by
  cases file with
  | none => rfl
  | some text =>
    simp only [loadMenuFromFile]
    split <;> rfl

theorem catalogInv_construct (extract : List Char → Option ℚ) (file : Option (List Char)) :
    (construct extract file).CatalogInv
    ∧ (construct extract file).current_order = Order.empty := by
  cases file with
  | none =>
    obtain ⟨h1, h2, h3, h4⟩ := construct_of_load_false extract none initial rfl rfl rfl
    refine ⟨⟨?_, ?_, ?_⟩, h4⟩
    · rw [h1, h2]
    · rw [h1]; rfl
    · rw [h1, h3]; rfl
  | some text =>
    have hinv := loadInv_foldl extract loadInv_init (getlines text)
    obtain ⟨hm, hids, hcid⟩ := hinv
    by_cases hemp : ((getlines text).foldl (loadLine extract) ([], [], 1)).1 = []
    · have hload : loadMenuFromFile extract initial (some text)
          = (false, { initial with
              menu_list := ((getlines text).foldl (loadLine extract) ([], [], 1)).1,
              menu_map := ((getlines text).foldl (loadLine extract) ([], [], 1)).2.1,
              next_available_id :=
                ((getlines text).foldl (loadLine extract) ([], [], 1)).2.2 }) := by
        simp only [loadMenuFromFile, hemp, if_true]
      obtain ⟨h1, h2, h3, h4⟩ := construct_of_load_false extract (some text) _ hload hemp
        (by simp only [hm, hemp, List.map_nil])
      refine ⟨⟨?_, ?_, ?_⟩, h4⟩
      · rw [h1, h2]
      · rw [h1]; rfl
      · rw [h1, h3]; rfl
    · have hload : loadMenuFromFile extract initial (some text)
          = (true, { initial with
              menu_list := ((getlines text).foldl (loadLine extract) ([], [], 1)).1,
              menu_map := ((getlines text).foldl (loadLine extract) ([], [], 1)).2.1,
              next_available_id :=
                ((getlines text).foldl (loadLine extract) ([], [], 1)).2.2 }) := by
        simp only [loadMenuFromFile, hemp, if_false]
      have hraise := foldl_raise_id
        ((getlines text).foldl (loadLine extract) ([], [], 1)).1
        ((getlines text).foldl (loadLine extract) ([], [], 1)).2.2
        (by
          intro it hit
          have hmem : it.id ∈ List.map MenuItem.id
              ((getlines text).foldl (loadLine extract) ([], [], 1)).1 :=
            List.mem_map_of_mem _ hit
          rw [hids] at hmem
          have := (mem_idsFrom1.mp hmem).2
          omega)
      simp only [construct, hload, hraise]
      exact ⟨⟨hm, hids, hcid⟩, rfl⟩

end FoodOrderingSystem

/-! ## Preservation of the invariants by the service operations -/

theorem find_map_pairOf {l : List MenuItem} {k : Int} {it : MenuItem}
    (h : IntMap.find k (l.map pairOf) = some it) : it ∈ l ∧ it.id = k := by
  have hmem := IntMap.mem_of_find h
  simp only [List.mem_map, pairOf, Prod.mk.injEq] at hmem
  obtain ⟨x, hx, hxk, hxi⟩ := hmem
  subst hxi
  exact ⟨hx, hxk⟩

theorem wf_map_pairOf {l : List MenuItem} (hids : l.map MenuItem.id = idsFrom1 l.length) :
    IntMap.WF (l.map pairOf) := by
  unfold IntMap.WF
  rw [keys_map_pairOf, hids]
  exact idsFrom1_pairwise _

theorem setFirstPrice_ids (id : Int) (p : ℚ) (l : List MenuItem) :
    (FoodOrderingSystem.setFirstPrice id p l).map MenuItem.id = l.map MenuItem.id
    ∧ (FoodOrderingSystem.setFirstPrice id p l).length = l.length := by
  induction l with
  | nil => simp [FoodOrderingSystem.setFirstPrice]
  | cons it rest ih =>
    by_cases h : it.id = id
    · simp [FoodOrderingSystem.setFirstPrice, h]
    · simp [FoodOrderingSystem.setFirstPrice, h, ih.1, ih.2]

theorem setFirstPrice_map_pairOf (id : Int) (p : ℚ) {l : List MenuItem} {item : MenuItem}
    (hwf : IntMap.WF (l.map pairOf)) (h : IntMap.find id (l.map pairOf) = some item) :
    IntMap.insert id { item with price := p } (l.map pairOf)
      = (FoodOrderingSystem.setFirstPrice id p l).map pairOf := by
  induction l with
  | nil => simp [IntMap.find] at h
  | cons it rest ih =>
    simp only [List.map_cons, pairOf] at hwf h ⊢
    obtain ⟨hlt, hwt⟩ := IntMap.wf_cons.mp hwf
    by_cases h2 : id = it.id
    · simp only [IntMap.find, h2, if_true, Option.some.injEq] at h
      subst h
      have h1 : ¬ id < it.id := by omega
      simp [IntMap.insert, h1, h2, FoodOrderingSystem.setFirstPrice, pairOf]
    · simp only [IntMap.find, h2, if_false] at h
      have hk : id ∈ IntMap.keys (rest.map pairOf) := IntMap.mem_keys_of_find h
      have h1 : ¬ id < it.id := by
        have := hlt id hk
        omega
      have h3 : ¬ it.id = id := fun e => h2 e.symm
      have ih' := ih hwt h
      simp only [pairOf] at ih'
      simp [IntMap.insert, h1, h2, h3, FoodOrderingSystem.setFirstPrice, pairOf, ih']

namespace FoodOrderingSystem

theorem takeOrder_catalog (s : FoodOrderingSystem) (entries : List (Int × Int)) :
    (s.takeOrder entries).menu_list = s.menu_list
    ∧ (s.takeOrder entries).menu_map = s.menu_map
    ∧ (s.takeOrder entries).next_available_id = s.next_available_id := by
  induction entries generalizing s with
  | nil => exact ⟨rfl, rfl, rfl⟩
  | cons e rest ih =>
    obtain ⟨item_id, quantity⟩ := e
    unfold takeOrder
    split
    · exact ⟨rfl, rfl, rfl⟩
    · split
      · split
        · exact ih s
        · split
          · exact ih _
          · exact ih s
      · exact ih s

theorem modifyOrder_catalog {s s' : FoodOrderingSystem} {i q : Int} {out : ModifyOutcome}
    (h : s.modifyOrder i q = some (out, s')) :
    s'.menu_list = s.menu_list ∧ s'.menu_map = s.menu_map
    ∧ s'.next_available_id = s.next_available_id := by
  unfold modifyOrder at h
  split at h
  · cases h; exact ⟨rfl, rfl, rfl⟩
  · split at h
    · cases h; exact ⟨rfl, rfl, rfl⟩
    · split at h
      · split at h
        · cases h; exact ⟨rfl, rfl, rfl⟩
        · split at h
          · cases h
          · split at h
            · cases h; exact ⟨rfl, rfl, rfl⟩
            · cases h; exact ⟨rfl, rfl, rfl⟩
      · cases h; exact ⟨rfl, rfl, rfl⟩

theorem processPayment_catalog (s : FoodOrderingSystem) (inputs : List ℚ) :
    (s.processPayment inputs).2.menu_list = s.menu_list
    ∧ (s.processPayment inputs).2.menu_map = s.menu_map
    ∧ (s.processPayment inputs).2.next_available_id = s.next_available_id := by
  unfold processPayment
  split
  · exact ⟨rfl, rfl, rfl⟩
  · simp only
    split <;> exact ⟨rfl, rfl, rfl⟩

theorem processPayment_order (s : FoodOrderingSystem) (inputs : List ℚ) :
    (s.processPayment inputs).2.current_order = s.current_order
    ∨ (s.processPayment inputs).2.current_order = { items := [], total_cost := 0 } := by
  unfold processPayment
  split
  · exact Or.inl rfl
  · simp only
    split
    · exact Or.inl rfl
    · exact Or.inr rfl

theorem catalogInv_of_eq {s s' : FoodOrderingSystem} (h : s.CatalogInv)
    (e : s'.menu_list = s.menu_list ∧ s'.menu_map = s.menu_map
      ∧ s'.next_available_id = s.next_available_id) : s'.CatalogInv := by
  obtain ⟨e1, e2, e3⟩ := e
  unfold CatalogInv
  rw [e1, e2, e3]
  exact h

theorem catalogInv_addNewItem {s : FoodOrderingSystem} (h : s.CatalogInv)
    (input : List Char) (price : ℚ) : (s.addNewItem input price).2.CatalogInv := by
  unfold addNewItem
  simp only
  split
  · exact h
  · obtain ⟨hm, hids, hn⟩ := h
    obtain ⟨h1, h2⟩ := append_item_inv s.menu_list (input.takeWhile (· ≠ '\n')) price hids
    refine ⟨?_, ?_, ?_⟩
    · simp only [hm, hn]
      exact h1
    · simp only [hn]
      exact h2
    · simp only [hn, List.length_append, List.length_singleton]
      push_cast
      ring

theorem catalogInv_updateItemPrice {s : FoodOrderingSystem} (h : s.CatalogInv)
    (id : Int) (p : ℚ) : (s.updateItemPrice id p).2.CatalogInv := by
  unfold updateItemPrice
  split
  · rename_i item hf
    split
    · exact h
    · obtain ⟨hm, hids, hn⟩ := h
      rw [hm] at hf
      have hset := setFirstPrice_map_pairOf id p (wf_map_pairOf hids) hf
      have hsid := setFirstPrice_ids id p s.menu_list
      refine ⟨?_, ?_, ?_⟩
      · simp only [hm]
        exact hset
      · simp only [hsid.1, hsid.2]
        exact hids
      · simp only [hsid.2]
        exact hn
  · exact h

end FoodOrderingSystem

theorem Order.keys_addItem {o : Order} {i q : Int} {p : ℚ} {k : Int}
    (h : k ∈ IntMap.keys (o.addItem i q p).items) : k = i ∨ k ∈ IntMap.keys o.items := by
  unfold Order.addItem at h
  split at h
  · exact IntMap.mem_keys_insert.mp h
  · exact Or.inr h

theorem Order.keys_removeItem {o : Order} {i q : Int} {p : ℚ} {k : Int}
    (h : k ∈ IntMap.keys (o.removeItem i q p).2.items) : k ∈ IntMap.keys o.items := by
  unfold Order.removeItem at h
  split at h
  · rename_i stored hst
    split at h
    · exact IntMap.mem_keys_erase h
    · split at h
      · rcases IntMap.mem_keys_insert.mp h with rfl | h
        · exact IntMap.mem_keys_of_find hst
        · exact h
      · exact h
  · exact h

namespace FoodOrderingSystem

theorem sysInv_takeOrder {s : FoodOrderingSystem} (h : s.SysInv) (entries : List (Int × Int)) :
    (s.takeOrder entries).SysInv := by
  induction entries generalizing s with
  | nil => exact h
  | cons e rest ih =>
    obtain ⟨item_id, quantity⟩ := e
    unfold takeOrder
    split
    · exact h
    · split
      · split
        · exact ih h
        · split
          · rename_i item hf
            apply ih
            obtain ⟨hc, ho⟩ := h
            refine ⟨catalogInv_of_eq hc ⟨rfl, rfl, rfl⟩, ?_, ?_⟩
            · exact Order.inv_addItem ho.1 _ _ _
            · intro k hk
              rcases Order.keys_addItem hk with rfl | hk
              · have hf' := hf
                rw [hc.1] at hf'
                rw [(find_map_pairOf hf').2]
                exact IntMap.mem_keys_of_find hf
              · exact ho.2 k hk
          · exact ih h
      · exact ih h

theorem sysInv_modifyOrder {s s' : FoodOrderingSystem} (h : s.SysInv) {i q : Int}
    {out : ModifyOutcome} (hm : s.modifyOrder i q = some (out, s')) : s'.SysInv := by
  have hcat := catalogInv_of_eq h.1 (modifyOrder_catalog hm)
  have hmap := (modifyOrder_catalog hm).2.1
  refine ⟨hcat, ?_⟩
  have hrem : s'.current_order = s.current_order
      ∨ ∃ p, s'.current_order = (s.current_order.removeItem i q p).2 := by
    unfold modifyOrder at hm
    split at hm
    · cases hm; exact Or.inl rfl
    · split at hm
      · cases hm; exact Or.inl rfl
      · split at hm
        · split at hm
          · cases hm; exact Or.inl rfl
          · split at hm
            · cases hm
            · rename_i item hf
              split at hm
              · rename_i o hr
                cases hm
                exact Or.inr ⟨item.price, by rw [hr]⟩
              · rename_i o hr
                cases hm
                exact Or.inr ⟨item.price, by rw [hr]⟩
        · cases hm; exact Or.inl rfl
  rcases hrem with he | ⟨p, he⟩
  · unfold OrderInv
    rw [he, hmap]
    exact h.2
  · unfold OrderInv
    rw [he, hmap]
    exact ⟨Order.inv_removeItem h.2.1 i q p, fun k hk => h.2.2 k (Order.keys_removeItem hk)⟩

theorem sysInv_processPayment {s : FoodOrderingSystem} (h : s.SysInv) (inputs : List ℚ) :
    (s.processPayment inputs).2.SysInv := by
  refine ⟨catalogInv_of_eq h.1 (processPayment_catalog s inputs), ?_⟩
  unfold OrderInv
  rw [(processPayment_catalog s inputs).2.1]
  rcases processPayment_order s inputs with he | he
  · rw [he]; exact h.2
  · rw [he]
    exact ⟨Order.inv_empty, fun k hk => by simp [IntMap.keys] at hk⟩

theorem addNewItem_order (s : FoodOrderingSystem) (input : List Char) (price : ℚ) :
    (s.addNewItem input price).2.current_order = s.current_order
    ∧ ∀ k ∈ IntMap.keys s.menu_map, k ∈ IntMap.keys (s.addNewItem input price).2.menu_map := by
  unfold addNewItem
  simp only
  split
  · exact ⟨rfl, fun k hk => hk⟩
  · exact ⟨rfl, fun k hk => IntMap.mem_keys_insert.mpr (Or.inr hk)⟩

theorem updateItemPrice_order (s : FoodOrderingSystem) (id : Int) (p : ℚ) :
    (s.updateItemPrice id p).2.current_order = s.current_order
    ∧ (s.updateItemPrice id p).2.next_available_id = s.next_available_id
    ∧ ∀ k, k ∈ IntMap.keys (s.updateItemPrice id p).2.menu_map ↔ k ∈ IntMap.keys s.menu_map := by
  unfold updateItemPrice
  split
  · rename_i item hf
    split
    · exact ⟨rfl, rfl, fun k => Iff.rfl⟩
    · refine ⟨rfl, rfl, fun k => ?_⟩
      simp only
      rw [IntMap.mem_keys_insert]
      constructor
      · rintro (rfl | hk)
        · exact IntMap.mem_keys_of_find hf
        · exact hk
      · exact Or.inr
  · exact ⟨rfl, rfl, fun k => Iff.rfl⟩

theorem sysInv_step {s s' : FoodOrderingSystem} (h : s.SysInv) {op : Op}
    (hs : s.step op = some s') : s'.SysInv := by
  cases op with
  | takeOrder entries =>
    simp only [step, Option.some.injEq] at hs
    subst hs
    exact sysInv_takeOrder h entries
  | modifyOrder i q =>
    simp only [step, Option.map_eq_some'] at hs
    obtain ⟨⟨out, t⟩, ht, rfl⟩ := hs
    exact sysInv_modifyOrder h ht
  | processPayment inputs =>
    simp only [step, Option.some.injEq] at hs
    subst hs
    exact sysInv_processPayment h inputs
  | addNewItem input price =>
    simp only [step, Option.some.injEq] at hs
    subst hs
    refine ⟨catalogInv_addNewItem h.1 input price, ?_⟩
    unfold OrderInv
    rw [(addNewItem_order s input price).1]
    exact ⟨h.2.1, fun k hk => (addNewItem_order s input price).2 k (h.2.2 k hk)⟩
  | updateItemPrice id p =>
    simp only [step, Option.some.injEq] at hs
    subst hs
    refine ⟨catalogInv_updateItemPrice h.1 id p, ?_⟩
    unfold OrderInv
    rw [(updateItemPrice_order s id p).1]
    exact ⟨h.2.1, fun k hk => ((updateItemPrice_order s id p).2.2 k).mpr (h.2.2 k hk)⟩

theorem sysInv_run {s s' : FoodOrderingSystem} (h : s.SysInv) {ops : List Op}
    (hr : s.run ops = some s') : s'.SysInv := by
  induction ops generalizing s with
  | nil =>
    simp only [run, Option.some.injEq] at hr
    subst hr
    exact h
  | cons op ops ih =>
    simp only [run] at hr
    cases hst : s.step op with
    | none => rw [hst] at hr; cases hr
    | some t =>
      rw [hst] at hr
      exact ih (sysInv_step h hst) hr

theorem sysInv_construct (extract : List Char → Option ℚ) (file : Option (List Char)) :
    (construct extract file).SysInv := by
  obtain ⟨hc, ho⟩ := catalogInv_construct extract file
  refine ⟨hc, ?_⟩
  unfold OrderInv
  rw [ho]
  exact ⟨Order.inv_empty, fun k hk => by simp [Order.empty, IntMap.keys] at hk⟩

theorem sysInv_of_reachable {s : FoodOrderingSystem} (h : s.Reachable) : s.SysInv := by
  obtain ⟨extract, file, ops, hr⟩ := h
  exact sysInv_run (sysInv_construct extract file) hr

end FoodOrderingSystem

/-! ## Catalog list/map synchronisation and price updates -/

theorem negativeTotal_reachable : negativeTotal.Reachable :=
  ⟨extractDouble, none, sodaSession, by
    show defaultSystem.run sodaSession = some negativeTotal
    decide!⟩

theorem FoodOrderingSystem.find_of_mem_menu_list {s : FoodOrderingSystem} (h : s.CatalogInv)
    {it : MenuItem} (hit : it ∈ s.menu_list) : IntMap.find it.id s.menu_map = some it := by
  rw [h.1]
  apply IntMap.find_of_mem (wf_map_pairOf h.2.1)
  simp only [List.mem_map, pairOf, Prod.mk.injEq]
  exact ⟨it, hit, rfl, rfl⟩

theorem FoodOrderingSystem.ids_nodup {s : FoodOrderingSystem} (h : s.CatalogInv) :
    (s.menu_list.map MenuItem.id).Nodup := by
  rw [h.2.1]
  exact (idsFrom1_pairwise _).imp (fun hab => ne_of_lt hab)

/-- C8. Catalog list/map sync: in every state reachable from the constructor by
the service operations, the ids in `menu_list` are pairwise distinct, the keys
of `menu_map` are exactly the ids in `menu_list`, and for every item of
`menu_list` the entry of `menu_map` under its id is that same item (identical
id, name and price). -/
theorem catalog_sync (s : FoodOrderingSystem) (hreach : s.Reachable) :
    (s.menu_list.map MenuItem.id).Nodup
    ∧ (∀ k, k ∈ IntMap.keys s.menu_map ↔ ∃ it ∈ s.menu_list, it.id = k)
    ∧ (∀ it ∈ s.menu_list, IntMap.find it.id s.menu_map = some it)
    ∧ (∀ k it, IntMap.find k s.menu_map = some it → it ∈ s.menu_list ∧ it.id = k) := by
  have hinv := (FoodOrderingSystem.sysInv_of_reachable hreach).1
  refine ⟨FoodOrderingSystem.ids_nodup hinv, ?_, ?_, ?_⟩
  · intro k
    rw [hinv.1, keys_map_pairOf]
    simp only [List.mem_map]
  · intro it hit
    exact FoodOrderingSystem.find_of_mem_menu_list hinv hit
  · intro k it hf
    rw [hinv.1] at hf
    exact find_map_pairOf hf

/-- C8 at the state after the soda session on the default menu: ids distinct,
the map keyed by exactly the listed ids, each entry equal to its list item. -/
theorem catalog_sync_witness :
    negativeTotal.Reachable
    ∧ (negativeTotal.menu_list.map MenuItem.id).Nodup
    ∧ (∀ k, k ∈ IntMap.keys negativeTotal.menu_map ↔ ∃ it ∈ negativeTotal.menu_list, it.id = k)
    ∧ (∀ it ∈ negativeTotal.menu_list, IntMap.find it.id negativeTotal.menu_map = some it) :=
  ⟨negativeTotal_reachable,
   (catalog_sync negativeTotal negativeTotal_reachable).1,
   (catalog_sync negativeTotal negativeTotal_reachable).2.1,
   (catalog_sync negativeTotal negativeTotal_reachable).2.2.1⟩

theorem setFirstPrice_eq_map (id : Int) (p : ℚ) (l : List MenuItem)
    (hnd : (l.map MenuItem.id).Nodup) :
    FoodOrderingSystem.setFirstPrice id p l
      = l.map (fun it => if it.id = id then { it with price := p } else it) := by
  induction l with
  | nil => rfl
  | cons it rest ih =>
    simp only [List.map_cons, List.nodup_cons, List.mem_map, not_exists, not_and] at hnd
    by_cases h : it.id = id
    · have hrest : rest.map (fun x => if x.id = id then { x with price := p } else x) = rest := by
        conv_rhs => rw [← List.map_id rest]
        apply List.map_congr_left
        intro x hx
        have : ¬ x.id = id := fun e => hnd.1 x hx (e.trans h.symm)
        simp [this]
      simp only [FoodOrderingSystem.setFirstPrice, h, if_true, List.map_cons, hrest]
    · simp only [FoodOrderingSystem.setFirstPrice, h, if_false, List.map_cons, ih hnd.2]

theorem FoodOrderingSystem.updateItemPrice_same {s : FoodOrderingSystem} (h : s.CatalogInv)
    {id : Int} {p : ℚ} {it : MenuItem} (hf : IntMap.find id s.menu_map = some it)
    (hp : 0 < p) (he : it.price = p) : (s.updateItemPrice id p).2 = s := by
  have hnp : ¬ p ≤ 0 := not_le.mpr hp
  have hit : ({ it with price := p } : MenuItem) = it := by
    subst he
    rfl
  have hmap : IntMap.insert id { it with price := p } s.menu_map = s.menu_map := by
    rw [hit]
    have hwf : IntMap.WF s.menu_map := by
      rw [h.1]
      exact wf_map_pairOf h.2.1
    exact IntMap.insert_self hwf hf
  have hlist : FoodOrderingSystem.setFirstPrice id p s.menu_list = s.menu_list := by
    rw [setFirstPrice_eq_map id p s.menu_list (FoodOrderingSystem.ids_nodup h)]
    conv_rhs => rw [← List.map_id s.menu_list]
    apply List.map_congr_left
    intro x hx
    by_cases hxid : x.id = id
    · have hfx := FoodOrderingSystem.find_of_mem_menu_list h hx
      have hfi : IntMap.find x.id s.menu_map = some it := by rw [hxid]; exact hf
      have hxe : x = it := Option.some.inj (hfx.symm.trans hfi)
      subst hxe
      rw [if_pos hxid]
      exact hit
    · rw [if_neg hxid]
      rfl
  simp only [FoodOrderingSystem.updateItemPrice, hf, hnp, if_false, hmap, hlist]

theorem FoodOrderingSystem.updateItemPrice_differs {s : FoodOrderingSystem} (h : s.CatalogInv)
    {id : Int} {p : ℚ} {it : MenuItem} (hf : IntMap.find id s.menu_map = some it)
    (hp : 0 < p) (hne : it.price ≠ p) :
    (s.updateItemPrice id p).2.menu_map ≠ s.menu_map
    ∧ (s.updateItemPrice id p).2.menu_list ≠ s.menu_list := by
  have hnp : ¬ p ≤ 0 := not_le.mpr hp
  have hf' := hf
  rw [h.1] at hf'
  obtain ⟨hmem, hid⟩ := find_map_pairOf hf'
  have hnew : IntMap.find id (s.updateItemPrice id p).2.menu_map
      = some { it with price := p } := by
    simp only [FoodOrderingSystem.updateItemPrice, hf, hnp, if_false, IntMap.find_insert_self]
  have hdiff : ({ it with price := p } : MenuItem) ≠ it := by
    intro e
    have : ({ it with price := p } : MenuItem).price = it.price := by rw [e]
    exact hne this.symm
  constructor
  · intro e
    rw [e, hf] at hnew
    exact hdiff (Option.some.inj hnew).symm
  · intro e
    have hlist : (s.updateItemPrice id p).2.menu_list
        = s.menu_list.map (fun x => if x.id = id then { x with price := p } else x) := by
      simp only [FoodOrderingSystem.updateItemPrice, hf, hnp, if_false]
      exact setFirstPrice_eq_map id p s.menu_list (FoodOrderingSystem.ids_nodup h)
    have hin : ({ it with price := p } : MenuItem) ∈ s.menu_list := by
      rw [← e, hlist, List.mem_map]
      exact ⟨it, hmem, by simp [hid]⟩
    have hfx : IntMap.find it.id s.menu_map = some { it with price := p } :=
      FoodOrderingSystem.find_of_mem_menu_list h hin
    have hfi : IntMap.find it.id s.menu_map = some it := by rw [hid]; exact hf
    exact hdiff (Option.some.inj (hfx.symm.trans hfi))

/-- C9 (amended). Price update: in a reachable state, `updateItemPrice(id, p)`
performs the update exactly when `id` is a catalog id and `p > 0`.  Then the
item with that id has price `p` in both `menu_list` and `menu_map`, its id and
name, all other items, the order of `menu_list`, `next_available_id` and the
current order are unchanged.  When `id` is unknown or `p ≤ 0` the whole state
is left unchanged.  The catalog (the state, `menu_list`, `menu_map`) differs
from the one before exactly when `id` is a catalog id, `p > 0` and `p` is not
the current price of the item. -/
theorem updateItemPrice_contract (s : FoodOrderingSystem) (hreach : s.Reachable)
    (id : Int) (p : ℚ) :
    ((s.updateItemPrice id p).1 = .updated ↔ (id ∈ IntMap.keys s.menu_map ∧ 0 < p))
    ∧ ((id ∈ IntMap.keys s.menu_map ∧ 0 < p) →
        (s.updateItemPrice id p).2.menu_list
            = s.menu_list.map (fun it => if it.id = id then { it with price := p } else it)
        ∧ (∃ it ∈ s.menu_list, it.id = id
            ∧ ({ it with price := p } : MenuItem) ∈ (s.updateItemPrice id p).2.menu_list
            ∧ IntMap.find id (s.updateItemPrice id p).2.menu_map = some { it with price := p })
        ∧ (∀ j, j ≠ id →
            IntMap.find j (s.updateItemPrice id p).2.menu_map = IntMap.find j s.menu_map)
        ∧ (s.updateItemPrice id p).2.next_available_id = s.next_available_id
        ∧ (s.updateItemPrice id p).2.current_order = s.current_order)
    ∧ (¬ (id ∈ IntMap.keys s.menu_map ∧ 0 < p) → (s.updateItemPrice id p).2 = s)
    ∧ ((s.updateItemPrice id p).2 ≠ s → (id ∈ IntMap.keys s.menu_map ∧ 0 < p))
    ∧ ((s.updateItemPrice id p).2 ≠ s
        ↔ (id ∈ IntMap.keys s.menu_map ∧ 0 < p ∧ catalogPrice s.menu_map id ≠ p))
    ∧ ((s.updateItemPrice id p).2.menu_list ≠ s.menu_list
        ↔ (id ∈ IntMap.keys s.menu_map ∧ 0 < p ∧ catalogPrice s.menu_map id ≠ p))
    ∧ ((s.updateItemPrice id p).2.menu_map ≠ s.menu_map
        ↔ (id ∈ IntMap.keys s.menu_map ∧ 0 < p ∧ catalogPrice s.menu_map id ≠ p)) := by
  have hinv := (FoodOrderingSystem.sysInv_of_reachable hreach).1
  have hunch : ¬ (id ∈ IntMap.keys s.menu_map ∧ 0 < p) → (s.updateItemPrice id p).2 = s := by
    intro hn
    unfold FoodOrderingSystem.updateItemPrice
    split
    · rename_i item hf
      split
      · rfl
      · rename_i hp
        exact absurd ⟨IntMap.mem_keys_of_find hf, lt_of_not_ge hp⟩ hn
    · rfl
  have hsame : ¬ (id ∈ IntMap.keys s.menu_map ∧ 0 < p ∧ catalogPrice s.menu_map id ≠ p) →
      (s.updateItemPrice id p).2 = s := by
    intro hn
    by_cases hv : id ∈ IntMap.keys s.menu_map ∧ 0 < p
    · obtain ⟨item, hf⟩ := Option.isSome_iff_exists.mp
        ((IntMap.find_isSome_iff_mem_keys id s.menu_map).mpr hv.1)
      have hprice : item.price = p := by
        by_contra hne
        exact hn ⟨hv.1, hv.2, by simpa [catalogPrice, hf] using hne⟩
      exact FoodOrderingSystem.updateItemPrice_same hinv hf hv.2 hprice
    · exact hunch hv
  have hdiff : (id ∈ IntMap.keys s.menu_map ∧ 0 < p ∧ catalogPrice s.menu_map id ≠ p) →
      (s.updateItemPrice id p).2.menu_map ≠ s.menu_map
      ∧ (s.updateItemPrice id p).2.menu_list ≠ s.menu_list := by
    rintro ⟨hk, hp, hne⟩
    obtain ⟨item, hf⟩ := Option.isSome_iff_exists.mp
      ((IntMap.find_isSome_iff_mem_keys id s.menu_map).mpr hk)
    exact FoodOrderingSystem.updateItemPrice_differs hinv hf hp
      (by simpa [catalogPrice, hf] using hne)
  refine ⟨?_, ?_, hunch, ?_, ⟨?_, ?_⟩, ⟨?_, ?_⟩, ⟨?_, ?_⟩⟩
  rotate_left 3
  · intro hne
    by_contra hn
    exact hne (hsame hn)
  · intro hc e
    exact (hdiff hc).1 (by rw [e])
  · intro hne
    by_contra hn
    exact hne (by rw [hsame hn])
  · intro hc
    exact (hdiff hc).2
  · intro hne
    by_contra hn
    exact hne (by rw [hsame hn])
  · intro hc
    exact (hdiff hc).1
  · unfold FoodOrderingSystem.updateItemPrice
    split
    · rename_i item hf
      split
      · rename_i hp
        simp only [false_iff, not_and, not_lt, reduceCtorEq]
        exact fun _ => hp
      · rename_i hp
        simp only [true_iff]
        exact ⟨IntMap.mem_keys_of_find hf, lt_of_not_ge hp⟩
    · rename_i hf
      simp only [false_iff, not_and, reduceCtorEq]
      intro hk
      exact absurd hk ((IntMap.find_eq_none_iff id s.menu_map).mp hf)
  · rintro ⟨hk, hp⟩
    have hsome : (IntMap.find id s.menu_map).isSome = true :=
      (IntMap.find_isSome_iff_mem_keys id s.menu_map).mpr hk
    obtain ⟨item, hf⟩ := Option.isSome_iff_exists.mp hsome
    have hnp : ¬ p ≤ 0 := not_le.mpr hp
    have hf' := hf
    rw [hinv.1] at hf'
    obtain ⟨hmem, hid⟩ := find_map_pairOf hf'
    have hlist : (s.updateItemPrice id p).2.menu_list
        = s.menu_list.map (fun it => if it.id = id then { it with price := p } else it) := by
      simp only [FoodOrderingSystem.updateItemPrice, hf, hnp, if_false]
      exact setFirstPrice_eq_map id p s.menu_list (FoodOrderingSystem.ids_nodup hinv)
    refine ⟨hlist, ⟨item, hmem, hid, ?_, ?_⟩, ?_, ?_, ?_⟩
    · rw [hlist, List.mem_map]
      exact ⟨item, hmem, by simp [hid]⟩
    · simp only [FoodOrderingSystem.updateItemPrice, hf, hnp, if_false,
        IntMap.find_insert_self]
    · intro j hj
      simp only [FoodOrderingSystem.updateItemPrice, hf, hnp, if_false]
      exact IntMap.find_insert_ne hj _ _
    · exact (FoodOrderingSystem.updateItemPrice_order s id p).2.1
    · exact (FoodOrderingSystem.updateItemPrice_order s id p).1
  · intro hne
    by_contra hn
    exact hne (hunch hn)

theorem defaultSystem_reachable : defaultSystem.Reachable :=
  ⟨extractDouble, none, [], rfl⟩

/-- C9 on the default menu: repricing item 4 to 2.50 is performed, changes
only that price and changes the catalog; repricing the unknown id 9, or item 4
to 0, changes nothing. -/
theorem updateItemPrice_contract_witness :
    defaultSystem.Reachable
    ∧ ((defaultSystem.updateItemPrice 4 (5 / 2)).1 = .updated
        ↔ (4 ∈ IntMap.keys defaultSystem.menu_map ∧ (0 : ℚ) < 5 / 2))
    ∧ (4 ∈ IntMap.keys defaultSystem.menu_map ∧ (0 : ℚ) < 5 / 2)
    ∧ (defaultSystem.updateItemPrice 4 (5 / 2)).2.menu_list
        = defaultSystem.menu_list.map
            (fun it => if it.id = 4 then { it with price := 5 / 2 } else it)
    ∧ (defaultSystem.updateItemPrice 9 (5 / 2)).2 = defaultSystem
    ∧ (defaultSystem.updateItemPrice 4 0).2 = defaultSystem
    ∧ (4 ∈ IntMap.keys defaultSystem.menu_map ∧ (0 : ℚ) < 5 / 2
        ∧ catalogPrice defaultSystem.menu_map 4 ≠ 5 / 2)
    ∧ (defaultSystem.updateItemPrice 4 (5 / 2)).2 ≠ defaultSystem
    ∧ (defaultSystem.updateItemPrice 4 (5 / 2)).2.menu_list ≠ defaultSystem.menu_list
    ∧ (defaultSystem.updateItemPrice 4 (5 / 2)).2.menu_map ≠ defaultSystem.menu_map :=
  have hk : (4 : Int) ∈ IntMap.keys defaultSystem.menu_map ∧ (0 : ℚ) < 5 / 2 :=
    ⟨by decide!, by decide!⟩
  have hc : (4 : Int) ∈ IntMap.keys defaultSystem.menu_map ∧ (0 : ℚ) < 5 / 2
      ∧ catalogPrice defaultSystem.menu_map 4 ≠ 5 / 2 :=
    ⟨by decide!, by decide!, by decide!⟩
  ⟨defaultSystem_reachable,
   (updateItemPrice_contract defaultSystem defaultSystem_reachable 4 (5 / 2)).1,
   hk,
   ((updateItemPrice_contract defaultSystem defaultSystem_reachable 4 (5 / 2)).2.1 hk).1,
   (updateItemPrice_contract defaultSystem defaultSystem_reachable 9 (5 / 2)).2.2.1
     (by decide!),
   (updateItemPrice_contract defaultSystem defaultSystem_reachable 4 0).2.2.1
     (by decide!),
   hc,
   (updateItemPrice_contract defaultSystem defaultSystem_reachable 4 (5 / 2)).2.2.2.2.1.mpr hc,
   (updateItemPrice_contract defaultSystem defaultSystem_reachable 4 (5 / 2)).2.2.2.2.2.1.mpr hc,
   (updateItemPrice_contract defaultSystem defaultSystem_reachable 4 (5 / 2)).2.2.2.2.2.2.mpr hc⟩

/-- C9 as stated fails when the new price is the current one: on the default
menu item 4 costs 1.50; `updateItemPrice(4, 1.50)` has a catalog id and a price
> 0 and performs the update, yet the catalog (the whole state) is the same as
before, so "changes the catalog if and only if the id is known and p > 0"
does not hold. -/
theorem updateItemPrice_same_price_counterexample :
    FoodOrderingSystem.construct extractDouble none = defaultSystem
    ∧ (4 : Int) ∈ IntMap.keys defaultSystem.menu_map
    ∧ (0 : ℚ) < 3 / 2
    ∧ catalogPrice defaultSystem.menu_map 4 = 3 / 2
    ∧ (defaultSystem.updateItemPrice 4 (3 / 2)).1 = .updated
    ∧ (defaultSystem.updateItemPrice 4 (3 / 2)).2 = defaultSystem
    ∧ ¬ ((defaultSystem.updateItemPrice 4 (3 / 2)).2 ≠ defaultSystem
          ↔ ((4 : Int) ∈ IntMap.keys defaultSystem.menu_map ∧ (0 : ℚ) < 3 / 2)) := by
  have h1 : (4 : Int) ∈ IntMap.keys defaultSystem.menu_map := by decide!
  have h2 : (0 : ℚ) < 3 / 2 := by decide!
  have h3 : (defaultSystem.updateItemPrice 4 (3 / 2)).2 = defaultSystem := by decide!
  exact ⟨rfl, h1, h2, by decide!, by decide!, h3, fun h => (h.mpr ⟨h1, h2⟩) h3⟩

/-! ## Monotonic ids -/

namespace FoodOrderingSystem

end FoodOrderingSystem

/-! ## Text lemmas: lines, `rfind`, numerals -/

theorem getlines_line (line rest : List Char) (h : '\n' ∉ line) :
    getlines (line ++ '\n' :: rest) = line :: getlines rest := by
  induction line with
  | nil => simp [getlines]
  | cons c l ih =>
    have hc : c ≠ '\n' := fun e => h (by simp [e])
    have hl : '\n' ∉ l := fun e => h (List.mem_cons_of_mem _ e)
    have ih' := ih hl
    show getlines (c :: (l ++ '\n' :: rest)) = (c :: l) :: getlines rest
    simp only [getlines, hc, if_false, ih']

theorem not_mem_of_mem_getlines (text : List Char) :
    ∀ line ∈ getlines text, '\n' ∉ line := by
  induction text with
  | nil => intro line h; simp [getlines] at h
  | cons c cs ih =>
    intro line h
    unfold getlines at h
    split at h
    · rcases List.mem_cons.mp h with rfl | h
      · simp
      · exact ih line h
    · rename_i hc
      split at h
      · simp only [List.mem_singleton] at h
        subst h
        simp only [List.mem_singleton]
        exact fun e => hc e.symm
      · rename_i l ls hg
        rcases List.mem_cons.mp h with rfl | h
        · intro hmem
          rcases List.mem_cons.mp hmem with e | hmem
          · exact hc e.symm
          · exact ih l (by rw [hg]; simp) hmem
        · exact ih line (by rw [hg]; exact List.mem_cons_of_mem _ h)

theorem rfind_none (c : Char) (s : List Char) (h : c ∉ s) : rfind c s = none := by
  induction s with
  | nil => rfl
  | cons x xs ih =>
    have hx : ¬ x = c := fun e => h (by simp [e])
    have hxs : c ∉ xs := fun e => h (List.mem_cons_of_mem _ e)
    simp [rfind, ih hxs, hx]

theorem rfind_last (c : Char) (name ps : List Char) (h : c ∉ ps) :
    rfind c (name ++ c :: ps) = some name.length := by
  induction name with
  | nil => simp [rfind, rfind_none c ps h]
  | cons x xs ih => simp [rfind, ih]

theorem digitChar_spec (d : Nat) (h : d < 10) :
    (digitChar d).isDigit = true ∧ digitVal (digitChar d) = d
    ∧ digitChar d ≠ ',' ∧ digitChar d ≠ '\n' ∧ digitChar d ≠ '-' ∧ digitChar d ≠ '+'
    ∧ digitChar d ≠ '.' ∧ isSpace (digitChar d) = false := by
  interval_cases d <;> decide

theorem decimalDigits_digits (fuel n : Nat) :
    ∀ c ∈ decimalDigits fuel n, ∃ d, d < 10 ∧ c = digitChar d := by
  induction fuel generalizing n with
  | zero => intro c h; simp [decimalDigits] at h
  | succ fuel ih =>
    intro c h
    unfold decimalDigits at h
    split at h
    · rename_i hn
      simp only [List.mem_singleton] at h
      exact ⟨n, hn, h⟩
    · rcases List.mem_append.mp h with h | h
      · exact ih _ c h
      · simp only [List.mem_singleton] at h
        exact ⟨n % 10, Nat.mod_lt _ (by decide), h⟩

theorem digitsVal_append (xs : List Char) (c : Char) :
    digitsVal (xs ++ [c]) = 10 * digitsVal xs + digitVal c := by
  simp [digitsVal, List.foldl_append]

theorem digitsVal_decimalDigits (fuel n : Nat) (h : n < fuel) :
    digitsVal (decimalDigits fuel n) = n := by
  induction fuel generalizing n with
  | zero => omega
  | succ fuel ih =>
    unfold decimalDigits
    split
    · rename_i hn
      simp [digitsVal, (digitChar_spec n hn).2.1]
    · rename_i hn
      have hlt : n / 10 < fuel := by omega
      rw [digitsVal_append, ih _ hlt, (digitChar_spec (n % 10) (Nat.mod_lt _ (by decide))).2.1]
      omega

theorem decimalDigits_ne_nil (fuel n : Nat) : decimalDigits (fuel + 1) n ≠ [] := by
  unfold decimalDigits
  split <;> simp

theorem natToText_spec (n : Nat) :
    natToText n ≠ [] ∧ digitsVal (natToText n) = n
    ∧ ∀ c ∈ natToText n, ∃ d, d < 10 ∧ c = digitChar d :=
  ⟨decimalDigits_ne_nil n n, digitsVal_decimalDigits (n + 1) n (by omega),
   decimalDigits_digits (n + 1) n⟩

theorem takeWhile_append_stop {p : Char → Bool} (l : List Char) (x : Char) (r : List Char)
    (hl : ∀ c ∈ l, p c = true) (hx : p x = false) :
    (l ++ x :: r).takeWhile p = l ∧ (l ++ x :: r).dropWhile p = x :: r := by
  induction l with
  | nil => simp [List.takeWhile, List.dropWhile, hx]
  | cons c cs ih =>
    have hc : p c = true := hl c (by simp)
    have ih' := ih (fun y hy => hl y (List.mem_cons_of_mem _ hy))
    simp [List.takeWhile, List.dropWhile, hc, ih'.1, ih'.2]

theorem takeWhile_all {p : Char → Bool} (l : List Char) (hl : ∀ c ∈ l, p c = true) :
    l.takeWhile p = l ∧ l.dropWhile p = [] := by
  induction l with
  | nil => simp
  | cons c cs ih =>
    have hc : p c = true := hl c (by simp)
    have ih' := ih (fun y hy => hl y (List.mem_cons_of_mem _ hy))
    simp [List.takeWhile, List.dropWhile, hc, ih'.1, ih'.2]

theorem extractDouble_core (neg : Bool) (cs ip fp : List Char)
    (hsp : cs.dropWhile isSpace = cs)
    (hm : cs.head? ≠ some '-') (hp : cs.head? ≠ some '+')
    (htake : cs.takeWhile Char.isDigit = ip)
    (hdrop : cs.dropWhile Char.isDigit = '.' :: fp)
    (hft : fp.takeWhile Char.isDigit = fp) (hfd : fp.dropWhile Char.isDigit = [])
    (hne : ip ≠ []) :
    extractDouble ((if neg then ['-'] else []) ++ cs)
      = some (if neg then -((digitsVal ip : ℚ) + (digitsVal fp : ℚ) / (10 : ℚ) ^ fp.length)
              else (digitsVal ip : ℚ) + (digitsVal fp : ℚ) / (10 : ℚ) ^ fp.length) := by
  cases neg with
  | false =>
    simp only [Bool.false_eq_true, if_false, List.nil_append]
    unfold extractDouble
    simp only [hsp, hm, hp, decide_False, Bool.or_self, Bool.false_eq_true, if_false,
      htake, hdrop, List.head?_cons, decide_True, if_true, List.tail_cons, hft, hfd,
      extractExponent, hne, false_and, mul_one]
  | true =>
    have hsm : List.dropWhile isSpace ('-' :: cs) = '-' :: cs := by
      have : isSpace '-' = false := by decide
      simp [List.dropWhile, this]
    simp only [if_true, List.singleton_append]
    unfold extractDouble
    simp only [hsm, List.head?_cons, decide_True, Bool.true_or, if_true, List.tail_cons,
      htake, hdrop, hft, hfd, extractExponent, hne, false_and, if_false, mul_one]

theorem extractDouble_numeral (neg : Bool) (i d1 d2 : Nat) (h1 : d1 < 10) (h2 : d2 < 10) :
    extractDouble ((if neg then ['-'] else [])
        ++ (natToText i ++ ['.'] ++ [digitChar d1, digitChar d2]))
      = some (if neg then -((i : ℚ) + ((10 * d1 + d2 : Nat) : ℚ) / 100)
              else (i : ℚ) + ((10 * d1 + d2 : Nat) : ℚ) / 100) := by
  obtain ⟨hne, hval, hdig⟩ := natToText_spec i
  have hdigit : ∀ c ∈ natToText i, c.isDigit = true := by
    intro c hc
    obtain ⟨d, hd, rfl⟩ := hdig c hc
    exact (digitChar_spec d hd).1
  obtain ⟨hd, tl, htxt⟩ := List.exists_cons_of_ne_nil hne
  obtain ⟨d0, hd0, hhd⟩ := hdig hd (by rw [htxt]; simp)
  have hs0 := digitChar_spec d0 hd0
  have hsplit := takeWhile_append_stop (p := Char.isDigit) (natToText i) '.'
    [digitChar d1, digitChar d2] hdigit (by decide)
  have hfrac := takeWhile_all (p := Char.isDigit) [digitChar d1, digitChar d2]
    (by
      intro c hc
      simp only [List.mem_cons, List.mem_singleton, List.not_mem_nil, or_false] at hc
      rcases hc with rfl | rfl
      · exact (digitChar_spec d1 h1).1
      · exact (digitChar_spec d2 h2).1)
  have hfv : digitsVal [digitChar d1, digitChar d2] = 10 * d1 + d2 := by
    simp [digitsVal, (digitChar_spec d1 h1).2.1, (digitChar_spec d2 h2).2.1]
  have hbody : natToText i ++ ['.'] ++ [digitChar d1, digitChar d2]
      = natToText i ++ '.' :: [digitChar d1, digitChar d2] := by simp
  have hcons : natToText i ++ '.' :: [digitChar d1, digitChar d2]
      = hd :: (tl ++ '.' :: [digitChar d1, digitChar d2]) := by rw [htxt]; simp
  have hsp : isSpace hd = false := by rw [hhd]; exact hs0.2.2.2.2.2.2.2
  have hm : hd ≠ '-' := by rw [hhd]; exact hs0.2.2.2.2.1
  have hp : hd ≠ '+' := by rw [hhd]; exact hs0.2.2.2.2.2.1
  have key := extractDouble_core neg (natToText i ++ '.' :: [digitChar d1, digitChar d2])
    (natToText i) [digitChar d1, digitChar d2]
    (by rw [hcons]; simp [List.dropWhile, hsp])
    (by rw [hcons]; simp [hm])
    (by rw [hcons]; simp [hp])
    hsplit.1 hsplit.2 hfrac.1 hfrac.2 hne
  rw [hbody, key, hval, hfv]
  norm_num

theorem fixed2_eq (x : ℚ) :
    fixed2 x = (if decide (x < 0) then ['-'] else [])
      ++ (natToText ((roundHalfEven (|x| * 100)).toNat / 100) ++ ['.']
        ++ [digitChar ((roundHalfEven (|x| * 100)).toNat % 100 / 10),
            digitChar ((roundHalfEven (|x| * 100)).toNat % 10)]) := by
  unfold fixed2
  by_cases h : x < 0 <;> simp [h]

theorem extractDouble_fixed2 (x : ℚ) : extractDouble (fixed2 x) = some (round2 x) := by
  rw [fixed2_eq, extractDouble_numeral (decide (x < 0))
    ((roundHalfEven (|x| * 100)).toNat / 100)
    ((roundHalfEven (|x| * 100)).toNat % 100 / 10)
    ((roundHalfEven (|x| * 100)).toNat % 10) (by omega) (by omega)]
  have hc : ∀ c : Nat,
      ((c / 100 : Nat) : ℚ) + ((10 * (c % 100 / 10) + c % 10 : Nat) : ℚ) / 100 = (c : ℚ) / 100 := by
    intro c
    have h : c = 100 * (c / 100) + (10 * (c % 100 / 10) + c % 10) := by omega
    generalize c / 100 = a at h ⊢
    generalize 10 * (c % 100 / 10) + c % 10 = b at h ⊢
    subst h
    push_cast
    ring
  rw [hc]
  unfold round2
  by_cases h : x < 0 <;> simp [h]

theorem not_mem_fixed2 (x : ℚ) : ',' ∉ fixed2 x ∧ '\n' ∉ fixed2 x := by
  have hd : ∀ d, d < 10 → ',' ≠ digitChar d ∧ '\n' ≠ digitChar d := fun d hd =>
    ⟨fun e => (digitChar_spec d hd).2.2.1 e.symm, fun e => (digitChar_spec d hd).2.2.2.1 e.symm⟩
  have hn : ∀ n c, c ∈ natToText n → ',' ≠ c ∧ '\n' ≠ c := by
    intro n c hc
    obtain ⟨d, hlt, rfl⟩ := (natToText_spec n).2.2 c hc
    exact hd d hlt
  have h1 := hd ((roundHalfEven (|x| * 100)).toNat % 100 / 10) (by omega)
  have h2 := hd ((roundHalfEven (|x| * 100)).toNat % 10) (by omega)
  rw [fixed2_eq]
  constructor
  · intro hmem
    simp only [List.mem_append, List.mem_cons, List.mem_singleton, List.not_mem_nil,
      or_false] at hmem
    rcases hmem with hmem | (hmem | hmem) | hmem | hmem
    · split at hmem
      · simp only [List.mem_singleton] at hmem
        exact absurd hmem (by decide)
      · simp at hmem
    · exact (hn _ _ hmem).1 rfl
    · exact absurd hmem (by decide)
    · exact h1.1 hmem
    · exact h2.1 hmem
  · intro hmem
    simp only [List.mem_append, List.mem_cons, List.mem_singleton, List.not_mem_nil,
      or_false] at hmem
    rcases hmem with hmem | (hmem | hmem) | hmem | hmem
    · split at hmem
      · simp only [List.mem_singleton] at hmem
        exact absurd hmem (by decide)
      · simp at hmem
    · exact (hn _ _ hmem).2 rfl
    · exact absurd hmem (by decide)
    · exact h1.2 hmem
    · exact h2.2 hmem

theorem roundHalfEven_intCast (n : Int) : roundHalfEven (n : ℚ) = n := by
  have hf : Rat.floor (n : ℚ) = n := by
    show ⌊(n : ℚ)⌋ = n
    exact Int.floor_intCast n
  unfold roundHalfEven
  simp only [hf, sub_self]
  norm_num

theorem round2_hundredths (k : Int) : round2 ((k : ℚ) / 100) = (k : ℚ) / 100 := by
  have habs : |(k : ℚ) / 100| * 100 = ((|k| : Int) : ℚ) := by
    rw [abs_div]
    have : |(100 : ℚ)| = 100 := abs_of_pos (by norm_num)
    rw [this]
    push_cast
    field_simp
  unfold round2
  rw [habs, roundHalfEven_intCast]
  have hnat : ((|k|.toNat : Nat) : ℚ) = ((|k| : Int) : ℚ) := by
    have : ((|k|.toNat : Nat) : Int) = |k| := Int.toNat_of_nonneg (abs_nonneg k)
    exact_mod_cast this
  rw [hnat]
  by_cases h : (k : ℚ) / 100 < 0
  · have hk : k < 0 := by
      by_contra hn
      have : (0 : ℚ) ≤ (k : ℚ) / 100 := div_nonneg (by exact_mod_cast (not_lt.mp hn)) (by norm_num)
      exact absurd h (not_lt.mpr this)
    simp only [h, if_true, abs_of_neg hk]
    push_cast
    ring
  · have hk : 0 ≤ k := by
      by_contra hn
      have hk' : (k : ℚ) < 0 := by exact_mod_cast (not_le.mp hn)
      exact h (div_neg_of_neg_of_pos hk' (by norm_num))
    simp only [h, if_false, abs_of_nonneg hk]

/-! ## Reading back a saved menu -/

theorem loadLine_saved (st : LoadState) (name : List Char) (p : ℚ) :
    loadLine extractDouble st (name ++ ',' :: fixed2 p)
      = (st.1 ++ [MenuItem.mk st.2.2 name (round2 p)],
         IntMap.insert st.2.2 (MenuItem.mk st.2.2 name (round2 p)) st.2.1, st.2.2 + 1) := by
  have hr := rfind_last ',' name (fixed2 p) (not_mem_fixed2 p).1
  have ht : List.take name.length (name ++ ',' :: fixed2 p) = name := List.take_left' rfl
  have hd : List.drop (name.length + 1) (name ++ ',' :: fixed2 p) = fixed2 p := by
    have : name ++ ',' :: fixed2 p = (name ++ [',']) ++ fixed2 p := by simp
    rw [this]
    exact List.drop_left' (by simp)
  unfold loadLine
  simp only [hr, ht, hd, extractDouble_fixed2]

theorem menuText_cons (it : MenuItem) (rest : List MenuItem) :
    FoodOrderingSystem.menuText (it :: rest)
      = (it.name ++ ',' :: fixed2 it.price) ++ '\n' :: FoodOrderingSystem.menuText rest := by
  simp [FoodOrderingSystem.menuText]

theorem load_menuText (l : List MenuItem) (hnames : ∀ it ∈ l, '\n' ∉ it.name) (st : LoadState) :
    ((getlines (FoodOrderingSystem.menuText l)).foldl (loadLine extractDouble) st).1
      = st.1 ++ renumber st.2.2 l := by
  induction l generalizing st with
  | nil => simp [FoodOrderingSystem.menuText, getlines, renumber]
  | cons it rest ih =>
    have hline : '\n' ∉ it.name ++ ',' :: fixed2 it.price := by
      intro hmem
      rcases List.mem_append.mp hmem with h | h
      · exact hnames it (by simp) h
      · rcases List.mem_cons.mp h with h | h
        · exact absurd h (by decide)
        · exact (not_mem_fixed2 it.price).2 h
    rw [menuText_cons, getlines_line _ _ hline, List.foldl_cons, loadLine_saved,
      ih (fun x hx => hnames x (List.mem_cons_of_mem _ hx))]
    simp [renumber]

theorem renumber_spec (start : Int) (l : List MenuItem) :
    (renumber start l).length = l.length
    ∧ (renumber start l).map MenuItem.name = l.map MenuItem.name
    ∧ (renumber start l).map MenuItem.price = l.map (fun it => round2 it.price) := by
  induction l generalizing start with
  | nil => simp [renumber]
  | cons it rest ih => simp [renumber, (ih (start + 1)).1, (ih (start + 1)).2.1, (ih (start + 1)).2.2]

theorem renumber_eq_self (n : Nat) (l : List MenuItem)
    (hids : l.map MenuItem.id = (List.range l.length).map (fun (i : Nat) => ((n + i : Nat) : Int) + 1))
    (hp : ∀ it ∈ l, round2 it.price = it.price) :
    renumber ((n : Int) + 1) l = l := by
  induction l generalizing n with
  | nil => rfl
  | cons it rest ih =>
    simp only [List.map_cons, List.length_cons, List.range_succ_eq_map, List.map_map,
      List.cons.injEq] at hids
    obtain ⟨hid, hrest⟩ := hids
    have hrest' : rest.map MenuItem.id
        = (List.range rest.length).map (fun (i : Nat) => (((n + 1) + i : Nat) : Int) + 1) := by
      rw [hrest]
      apply List.map_congr_left
      intro i _
      simp only [Function.comp, Nat.succ_eq_add_one]
      push_cast
      ring
    have ih' := ih (n + 1) hrest' (fun x hx => hp x (List.mem_cons_of_mem _ hx))
    have hcast : ((n : Int) + 1 + 1) = (((n + 1 : Nat) : Int) + 1) := by push_cast; ring
    simp only [renumber, hcast, ih', hp it (by simp)]
    have : it.id = (n : Int) + 1 := by
      rw [hid]; simp
    rw [← this]

theorem loadLine_names (extract : List Char → Option ℚ) (st : LoadState) (line : List Char)
    (hst : ∀ it ∈ st.1, '\n' ∉ it.name) (hline : '\n' ∉ line) :
    ∀ it ∈ (loadLine extract st line).1, '\n' ∉ it.name := by
  unfold loadLine
  cases hr : rfind ',' line with
  | none => exact hst
  | some comma_pos =>
    simp only
    cases he : extract (List.drop (comma_pos + 1) line) with
    | none => exact hst
    | some price_part =>
      simp only
      intro it hit
      rcases List.mem_append.mp hit with h | h
      · exact hst it h
      · simp only [List.mem_singleton] at h
        subst h
        exact fun hm => hline (List.mem_of_mem_take hm)

theorem load_names (extract : List Char → Option ℚ) (lines : List (List Char)) (st : LoadState)
    (hst : ∀ it ∈ st.1, '\n' ∉ it.name) (hlines : ∀ line ∈ lines, '\n' ∉ line) :
    ∀ it ∈ (lines.foldl (loadLine extract) st).1, '\n' ∉ it.name := by
  induction lines generalizing st with
  | nil => exact hst
  | cons line rest ih =>
    exact ih _ (loadLine_names extract st line hst (hlines line (by simp)))
      (fun l hl => hlines l (List.mem_cons_of_mem _ hl))

theorem setFirstPrice_names (id : Int) (p : ℚ) (l : List MenuItem) :
    ∀ it ∈ FoodOrderingSystem.setFirstPrice id p l, ∃ x ∈ l, it.name = x.name := by
  induction l with
  | nil => intro it h; simp [FoodOrderingSystem.setFirstPrice] at h
  | cons x rest ih =>
    intro it h
    unfold FoodOrderingSystem.setFirstPrice at h
    split at h
    · rcases List.mem_cons.mp h with rfl | h
      · exact ⟨x, by simp, rfl⟩
      · exact ⟨it, List.mem_cons_of_mem _ h, rfl⟩
    · rcases List.mem_cons.mp h with rfl | h
      · exact ⟨it, by simp, rfl⟩
      · obtain ⟨y, hy, e⟩ := ih it h
        exact ⟨y, List.mem_cons_of_mem _ hy, e⟩

namespace FoodOrderingSystem

theorem construct_menu_list (extract : List Char → Option ℚ) (file : Option (List Char)) :
    (construct extract file).menu_list = defaults
    ∨ ∃ text, file = some text
        ∧ (construct extract file).menu_list
            = ((getlines text).foldl (loadLine extract) ([], [], 1)).1
        ∧ ((getlines text).foldl (loadLine extract) ([], [], 1)).1 ≠ [] := by
  cases file with
  | none =>
    exact Or.inl (construct_of_load_false extract none initial rfl rfl rfl).1
  | some text =>
    have hm := (loadInv_foldl extract loadInv_init (getlines text)).1
    by_cases hemp : ((getlines text).foldl (loadLine extract) ([], [], 1)).1 = []
    · have hload : loadMenuFromFile extract initial (some text)
          = (false, { initial with
              menu_list := ((getlines text).foldl (loadLine extract) ([], [], 1)).1,
              menu_map := ((getlines text).foldl (loadLine extract) ([], [], 1)).2.1,
              next_available_id :=
                ((getlines text).foldl (loadLine extract) ([], [], 1)).2.2 }) := by
        simp only [loadMenuFromFile, hemp, if_true]
      exact Or.inl (construct_of_load_false extract (some text) _ hload hemp
        (by simp only [hm, hemp, List.map_nil])).1
    · have hload : loadMenuFromFile extract initial (some text)
          = (true, { initial with
              menu_list := ((getlines text).foldl (loadLine extract) ([], [], 1)).1,
              menu_map := ((getlines text).foldl (loadLine extract) ([], [], 1)).2.1,
              next_available_id :=
                ((getlines text).foldl (loadLine extract) ([], [], 1)).2.2 }) := by
        simp only [loadMenuFromFile, hemp, if_false]
      refine Or.inr ⟨text, rfl, ?_, hemp⟩
      simp only [construct, hload]

theorem textInv_construct (extract : List Char → Option ℚ) (file : Option (List Char)) :
    (construct extract file).TextInv := by
  rcases construct_menu_list extract file with h | ⟨text, _, h, hne⟩
  · unfold TextInv
    rw [h]
    exact ⟨by decide, by decide⟩
  · unfold TextInv
    rw [h]
    exact ⟨load_names extract _ _ (by simp) (not_mem_of_mem_getlines text), hne⟩

theorem textInv_step {s s' : FoodOrderingSystem} (h : s.TextInv) {op : Op}
    (hs : s.step op = some s') : s'.TextInv := by
  cases op with
  | takeOrder entries =>
    simp only [step, Option.some.injEq] at hs
    subst hs
    unfold TextInv
    rw [(takeOrder_catalog s entries).1]
    exact h
  | modifyOrder i q =>
    simp only [step, Option.map_eq_some'] at hs
    obtain ⟨⟨out, t⟩, ht, rfl⟩ := hs
    unfold TextInv
    rw [(modifyOrder_catalog ht).1]
    exact h
  | processPayment inputs =>
    simp only [step, Option.some.injEq] at hs
    subst hs
    unfold TextInv
    rw [(processPayment_catalog s inputs).1]
    exact h
  | addNewItem input price =>
    simp only [step, Option.some.injEq] at hs
    subst hs
    unfold addNewItem
    simp only
    split
    · exact h
    · refine ⟨?_, by simp⟩
      intro it hit
      rcases List.mem_append.mp hit with hit | hit
      · exact h.1 it hit
      · simp only [List.mem_singleton] at hit
        subst hit
        intro hm
        have := List.mem_takeWhile_imp hm
        simp at this
  | updateItemPrice id p =>
    simp only [step, Option.some.injEq] at hs
    subst hs
    unfold updateItemPrice
    split
    · split
      · exact h
      · refine ⟨?_, ?_⟩
        · intro it hit
          obtain ⟨x, hx, e⟩ := setFirstPrice_names id p s.menu_list it hit
          rw [e]
          exact h.1 x hx
        · intro hnil
          have := (setFirstPrice_ids id p s.menu_list).2
          simp only at hnil
          rw [hnil] at this
          exact h.2 (List.length_eq_zero.mp this.symm)
    · exact h

theorem textInv_run {s s' : FoodOrderingSystem} (h : s.TextInv) {ops : List Op}
    (hr : s.run ops = some s') : s'.TextInv := by
  induction ops generalizing s with
  | nil =>
    simp only [run, Option.some.injEq] at hr
    subst hr
    exact h
  | cons op ops ih =>
    simp only [run] at hr
    cases hst : s.step op with
    | none => rw [hst] at hr; cases hr
    | some t =>
      rw [hst] at hr
      exact ih (textInv_step h hst) hr

theorem textInv_of_reachable {s : FoodOrderingSystem} (h : s.Reachable) : s.TextInv := by
  obtain ⟨extract, file, ops, hr⟩ := h
  exact textInv_run (textInv_construct extract file) hr

end FoodOrderingSystem

namespace FoodOrderingSystem

theorem load_saved (s t : FoodOrderingSystem) (hc : s.CatalogInv) (ht : s.TextInv) :
    t.loadMenuFromFile extractDouble (some (menuText s.menu_list))
      = (true, { t with
          menu_list := renumber 1 s.menu_list,
          menu_map := (renumber 1 s.menu_list).map pairOf,
          next_available_id := s.next_available_id }) := by
  have hfold := load_menuText s.menu_list ht.1 ([], [], 1)
  simp only [List.nil_append] at hfold
  have hinv := loadInv_foldl extractDouble loadInv_init (getlines (menuText s.menu_list))
  have hlen := (renumber_spec 1 s.menu_list).1
  have hne : renumber 1 s.menu_list ≠ [] := by
    intro e
    rw [e] at hlen
    exact ht.2 (List.length_eq_zero.mp hlen.symm)
  have h3 : ((getlines (menuText s.menu_list)).foldl (loadLine extractDouble) ([], [], 1)).2.2
      = s.next_available_id := by
    rw [hinv.2.2, hfold, hlen, hc.2.2]
  simp only [loadMenuFromFile, hfold, hne, if_false, hinv.1, h3]

end FoodOrderingSystem

/-! ## Save/load round trip -/

/-- C5 (amended). Save/load round trip: for every reachable catalog whose prices
are whole numbers of hundredths, the catalog is non-empty, `saveMenuToFile`
writes the menu text, and `loadMenuFromFile` on that text succeeds and yields a
menu with the same number of items, the same (name, price) pairs in the same
order, and the ids 1..n (in fact the identical `menu_list`). -/
theorem save_load_round_trip (s : FoodOrderingSystem) (hreach : s.Reachable)
    (hprices : ∀ it ∈ s.menu_list, ∃ k : Int, it.price = (k : ℚ) / 100)
    (t : FoodOrderingSystem) :
    s.menu_list ≠ []
    ∧ s.saveMenuToFile true = (true, some (FoodOrderingSystem.menuText s.menu_list))
    ∧ (t.loadMenuFromFile extractDouble
          (some (FoodOrderingSystem.menuText s.menu_list))).1 = true
    ∧ (t.loadMenuFromFile extractDouble
          (some (FoodOrderingSystem.menuText s.menu_list))).2.menu_list.length
        = s.menu_list.length
    ∧ (t.loadMenuFromFile extractDouble
          (some (FoodOrderingSystem.menuText s.menu_list))).2.menu_list.map
          (fun it => (it.name, it.price))
        = s.menu_list.map (fun it => (it.name, it.price))
    ∧ (t.loadMenuFromFile extractDouble
          (some (FoodOrderingSystem.menuText s.menu_list))).2.menu_list.map MenuItem.id
        = idsFrom1 s.menu_list.length
    ∧ (t.loadMenuFromFile extractDouble
          (some (FoodOrderingSystem.menuText s.menu_list))).2.menu_list = s.menu_list := by
  have hc := (FoodOrderingSystem.sysInv_of_reachable hreach).1
  have ht := FoodOrderingSystem.textInv_of_reachable hreach
  have hself : renumber 1 s.menu_list = s.menu_list := by
    have h := renumber_eq_self 0 s.menu_list
      (by rw [hc.2.1]; simp [idsFrom1])
      (by
        intro it hit
        obtain ⟨k, hk⟩ := hprices it hit
        rw [hk]
        exact round2_hundredths k)
    simpa using h
  rw [FoodOrderingSystem.load_saved s t hc ht, hself]
  refine ⟨ht.2, rfl, rfl, rfl, rfl, hc.2.1, rfl⟩

theorem defaults_hundredths : ∀ it ∈ defaultSystem.menu_list, ∃ k : Int, it.price = (k : ℚ) / 100 := by
  have h : defaultSystem.menu_list = defaults := by decide!
  rw [h]
  simp only [defaults, List.forall_mem_cons, List.not_mem_nil, false_implies, implies_true,
    and_true]
  exact ⟨⟨599, by norm_num⟩, ⟨350, by norm_num⟩, ⟨299, by norm_num⟩, ⟨150, by norm_num⟩,
    ⟨100, by norm_num⟩, ⟨400, by norm_num⟩⟩

/-- C5 on the default menu: saving and loading gives back the six items with
the same names and prices. -/
theorem save_load_round_trip_witness :
    defaultSystem.Reachable
    ∧ (∀ it ∈ defaultSystem.menu_list, ∃ k : Int, it.price = (k : ℚ) / 100)
    ∧ (FoodOrderingSystem.initial.loadMenuFromFile extractDouble
          (some (FoodOrderingSystem.menuText defaultSystem.menu_list))).1 = true
    ∧ (FoodOrderingSystem.initial.loadMenuFromFile extractDouble
          (some (FoodOrderingSystem.menuText defaultSystem.menu_list))).2.menu_list.map
          (fun it => (it.name, it.price))
        = defaultSystem.menu_list.map (fun it => (it.name, it.price)) :=
  ⟨defaultSystem_reachable, defaults_hundredths,
   (save_load_round_trip defaultSystem defaultSystem_reachable defaults_hundredths
      FoodOrderingSystem.initial).2.2.1,
   (save_load_round_trip defaultSystem defaultSystem_reachable defaults_hundredths
      FoodOrderingSystem.initial).2.2.2.2.1⟩

/-- C5 as stated fails for a price that is not a whole number of hundredths:
after the admin adds "Candy" at 0.0625 to the default menu (a price > 0), the
menu is saved with the line "Candy,0.06" and loads back with the price 0.06,
so the (name, price) pairs differ from the saved ones. -/
theorem save_load_round_trip_counterexample :
    defaultSystem.run [.addNewItem "Candy\n".toList (1 / 16)] = some candySystem
    ∧ (∀ it ∈ candySystem.menu_list, 0 < it.price)
    ∧ candySystem.menu_list.map MenuItem.price
        = [599 / 100, 350 / 100, 299 / 100, 150 / 100, 100 / 100, 400 / 100, 1 / 16]
    ∧ candySystem.saveMenuToFile true
        = (true, some (FoodOrderingSystem.menuText candySystem.menu_list))
    ∧ getlines (FoodOrderingSystem.menuText candySystem.menu_list)
        = ["Veggie Burger,5.99".toList, "Cheese Pizza Slice,3.50".toList,
           "French Fries (Large),2.99".toList, "Soda (Coke/Pepsi),1.50".toList,
           "Bottled Water,1.00".toList, "Iced Coffee,4.00".toList, "Candy,0.06".toList]
    ∧ (FoodOrderingSystem.initial.loadMenuFromFile extractDouble
          (some (FoodOrderingSystem.menuText candySystem.menu_list))).2.menu_list.map
          MenuItem.price
        = [599 / 100, 350 / 100, 299 / 100, 150 / 100, 100 / 100, 400 / 100, 6 / 100]
    ∧ (FoodOrderingSystem.initial.loadMenuFromFile extractDouble
          (some (FoodOrderingSystem.menuText candySystem.menu_list))).2.menu_list.map
          (fun it => (it.name, it.price))
        ≠ candySystem.menu_list.map (fun it => (it.name, it.price)) := by
  refine ⟨by decide!, by decide!, by decide!, by decide!, by decide!, by decide!, by decide!⟩

/-! ## Sign of the running total -/

namespace FoodOrderingSystem

end FoodOrderingSystem

/-- C10 fails on the code: the "order is empty" branch of `processPayment` and
`modifyOrder` tests `getTotal() == 0.0`, not the line items.  After ordering 1
soda and 1 water, repricing soda to 2.50 and removing the soda, the order still
holds 1 water but its total is 0, and both functions take the empty-order
branch; after the same session without the water the order has no line items
but the total is -1, and neither function takes the empty-order branch.  With
a menu file listing an item at price 0.00, ordering that item alone gives a
non-empty order with total 0, which again takes the empty-order branch. -/
theorem empty_order_signalling_fails :
    defaultSystem.run sodaWaterSession = some waterLeft
    ∧ waterLeft.current_order.items = [(5, 1)]
    ∧ waterLeft.current_order.getTotal = 0
    ∧ waterLeft.processPayment [5] = (.nothingToPay, waterLeft)
    ∧ waterLeft.modifyOrder 5 1 = some (.orderEmpty, waterLeft)
    ∧ defaultSystem.run sodaSession = some negativeTotal
    ∧ negativeTotal.current_order.items = []
    ∧ (negativeTotal.processPayment []).1 = .complete 1
    ∧ negativeTotal.modifyOrder 4 1 = some (.notInOrder, negativeTotal)
    ∧ freeItemOrder.current_order.items = [(1, 1)]
    ∧ freeItemOrder.processPayment [5] = (.nothingToPay, freeItemOrder)
    ∧ freeItemOrder.modifyOrder 1 1 = some (.orderEmpty, freeItemOrder) := by
  refine ⟨by decide!, by decide!, by decide!, by decide!, by decide!, by decide!, by decide!,
    by decide!, by decide!, by decide!, by decide!, by decide!⟩

theorem displayLines_length (menu_map : IntMap MenuItem) (items : IntMap Int)
    (h : ∀ k ∈ IntMap.keys items, k ∈ IntMap.keys menu_map) :
    (Order.displayLines menu_map items).length = items.length
    ∧ ∀ e ∈ items, ∃ item, IntMap.find e.1 menu_map = some item
        ∧ (e.2, item.name, item.price * (e.2 : ℚ)) ∈ Order.displayLines menu_map items := by
  induction items with
  | nil => simp [Order.displayLines]
  | cons hd rest ih =>
    obtain ⟨id, qty⟩ := hd
    have hrest : ∀ k ∈ IntMap.keys rest, k ∈ IntMap.keys menu_map := fun k hk =>
      h k (by simp only [IntMap.keys, List.map_cons, List.mem_cons] at hk ⊢; exact Or.inr hk)
    have hid : id ∈ IntMap.keys menu_map := h id (by simp [IntMap.keys])
    obtain ⟨item, hf⟩ := Option.isSome_iff_exists.mp
      ((IntMap.find_isSome_iff_mem_keys id menu_map).mpr hid)
    obtain ⟨hlen, hmem⟩ := ih hrest
    constructor
    · simp [Order.displayLines, hf, hlen]
    · intro e he
      rcases List.mem_cons.mp he with rfl | he
      · exact ⟨item, hf, by simp [Order.displayLines, hf]⟩
      · obtain ⟨it, hfi, hin⟩ := hmem e he
        exact ⟨it, hfi, by simp only [Order.displayLines, hf]; exact List.mem_cons_of_mem _ hin⟩

theorem order1250_reachable : order1250.Reachable :=
  ⟨extractDouble, none, [.takeOrder [(2, 2), (4, 1), (6, 1), (0, 0)]], rfl⟩

/-- C11. Order ids are always catalog ids: in every state reachable from the
constructed system by the service operations, every id stored in the order is
a key of `menu_map`; placing a line with an id that is not in the catalog
leaves the state, the order included, unchanged; `modifyOrder` always returns
(the lookup `menu_map.at(item_id)` never throws); and `displayOrder` prints one
line for every entry of the order (it never skips a line). -/
theorem order_ids_in_catalog (s : FoodOrderingSystem) (hreach : s.Reachable) :
    (∀ k ∈ IntMap.keys s.current_order.items, k ∈ IntMap.keys s.menu_map)
    ∧ (∀ id q, id ∉ IntMap.keys s.menu_map →
        s.takeOrder [(id, q)] = s
        ∧ ∀ rest, (s.takeOrder ((id, q) :: rest)).current_order
            = (if id = 0 then s else s.takeOrder rest).current_order)
    ∧ (∀ i q, ∃ out s', s.modifyOrder i q = some (out, s'))
    ∧ (Order.displayLines s.menu_map s.current_order.items).length
        = s.current_order.items.length
    ∧ (∀ e ∈ s.current_order.items, ∃ item, IntMap.find e.1 s.menu_map = some item
        ∧ (e.2, item.name, item.price * (e.2 : ℚ))
            ∈ Order.displayLines s.menu_map s.current_order.items)
    ∧ (s.current_order.items ≠ [] →
        s.current_order.displayOrder s.menu_map
          = some (Order.displayLines s.menu_map s.current_order.items,
                  s.current_order.getTotal)) := by
  have hinv := FoodOrderingSystem.sysInv_of_reachable hreach
  have hkeys := hinv.2.2
  obtain ⟨hlen, hmem⟩ := displayLines_length s.menu_map s.current_order.items hkeys
  refine ⟨hkeys, ?_, ?_, hlen, hmem, ?_⟩
  · intro id q hid
    have hcount : IntMap.count id s.menu_map = false := by
      have := (IntMap.find_eq_none_iff id s.menu_map).mpr hid
      simp [IntMap.count, this]
    constructor
    · by_cases h0 : id = 0
      · simp [FoodOrderingSystem.takeOrder, h0]
      · simp [FoodOrderingSystem.takeOrder, h0, hcount]
    · intro rest
      by_cases h0 : id = 0
      · simp [FoodOrderingSystem.takeOrder, h0]
      · simp [FoodOrderingSystem.takeOrder, h0, hcount]
  · intro i q
    unfold FoodOrderingSystem.modifyOrder
    split
    · exact ⟨_, _, rfl⟩
    · split
      · exact ⟨_, _, rfl⟩
      · split
        · rename_i hhas
          split
          · exact ⟨_, _, rfl⟩
          · have hi : i ∈ IntMap.keys s.current_order.items :=
              (IntMap.find_isSome_iff_mem_keys i s.current_order.items).mp hhas
            obtain ⟨item, hf⟩ := Option.isSome_iff_exists.mp
              ((IntMap.find_isSome_iff_mem_keys i s.menu_map).mpr (hkeys i hi))
            rw [hf]
            simp only
            split
            · exact ⟨_, _, rfl⟩
            · exact ⟨_, _, rfl⟩
        · exact ⟨_, _, rfl⟩
  · intro hne
    simp [Order.displayOrder, hne, Order.getTotal]

/-- C11 at the order of 2 pizza slices, 1 soda and 1 iced coffee on the default
menu: the order ids 2, 4 and 6 are catalog ids, ordering the unknown id 9
changes nothing, removing a soda returns, and the display has three lines. -/
theorem order_ids_in_catalog_witness :
    order1250.Reachable
    ∧ IntMap.keys order1250.current_order.items = [2, 4, 6]
    ∧ (∀ k ∈ IntMap.keys order1250.current_order.items, k ∈ IntMap.keys order1250.menu_map)
    ∧ (9 : Int) ∉ IntMap.keys order1250.menu_map
    ∧ order1250.takeOrder [(9, 1)] = order1250
    ∧ (∃ out s', order1250.modifyOrder 4 1 = some (out, s'))
    ∧ (Order.displayLines order1250.menu_map order1250.current_order.items).length
        = order1250.current_order.items.length
    ∧ Order.displayLines order1250.menu_map order1250.current_order.items
        = [(2, "Cheese Pizza Slice".toList, 7), (1, "Soda (Coke/Pepsi)".toList, 3 / 2),
           (1, "Iced Coffee".toList, 4)] :=
  ⟨order1250_reachable, by decide!,
   (order_ids_in_catalog order1250 order1250_reachable).1,
   by decide!,
   ((order_ids_in_catalog order1250 order1250_reachable).2.1 9 1 (by decide!)).1,
   (order_ids_in_catalog order1250 order1250_reachable).2.2.1 4 1,
   (order_ids_in_catalog order1250 order1250_reachable).2.2.2.1,
   by decide!⟩

end FoodOrdering
